import Mathlib

/-!
Verification of the configuration merge / provenance-tracking engine and the
session persistence layer of the `amplifier-app-cli` repository.

The embedding follows the Python sources:
  * `src/amplifier_app_cli/agent_config.py` (`merge_configs`),
  * `src/amplifier_app_cli/commands/profile.py` (`build_effective_config_with_sources`),
  * `src/amplifier_app_cli/session_store.py` (`_atomic_write`, `SessionStore`).

Python values flowing through these functions are JSON-like dictionaries; they
are embedded as the inductive type `Value` below, with Python `dict`s as
key-ordered association lists (Python dicts preserve insertion order; updating
an existing key keeps its position, a new key is appended).
-/

namespace Amplifier

/-- A Python value as it flows through the configuration / session code:
`null`/`bool`/`num`/`str` are the JSON-serializable primitives, `arr` a list,
`obj` a dict (insertion-ordered association list), and `raw` stands for a
non-JSON-serializable provider-SDK object (e.g. a ThinkingBlock): `json.dumps`
fails on it. -/
inductive Value where
  | null : Value
  | bool (b : Bool) : Value
  | num (n : Int) : Value
  | str (s : String) : Value
  | arr (xs : List Value) : Value
  | obj (kvs : List (String × Value)) : Value
  | raw (tag : String) : Value

/-- A Python dict with `Value` entries (insertion-ordered). -/
abbrev Obj := List (String × Value)

/-- `d[k]` lookup in an insertion-ordered dict: first matching key. -/
def alLookup {α : Type} : List (String × α) → String → Option α
  | [], _ => none
  | (k', v) :: rest, k => if k' = k then some v else alLookup rest k

/-- `k in d` for a dict. -/
def alHasKey {α : Type} (d : List (String × α)) (k : String) : Bool :=
  (alLookup d k).isSome

/-- `d[k] = v` assignment on a dict: an existing key keeps its position, a new
key is appended (Python dict update semantics). -/
def alUpsert {α : Type} : List (String × α) → String → α → List (String × α)
  | [], k, v => [(k, v)]
  | (k', v') :: rest, k, v =>
    if k' = k then (k, v) :: rest else (k', v') :: alUpsert rest k v

/-- `d.pop(k)` / `del d[k]`: remove the key from the dict. -/
def alErase {α : Type} : List (String × α) → String → List (String × α)
  | [], _ => []
  | (k', v') :: rest, k =>
    if k' = k then alErase rest k else (k', v') :: alErase rest k

/-- Keys of a dict are pairwise distinct (always true of a real Python dict;
stated on the association-list embedding). -/
def keysNodup {α : Type} : List (String × α) → Bool
  | [] => true
  | (k, _) :: rest => !(rest.any fun kv => kv.1 == k) && keysNodup rest

mutual

/-- Modelled from the spec: the recursive value merge of
`amplifier_profiles.merger.merge_profile_dicts` (the `amplifier-profiles`
library is not part of this repository's sources; spec §4.1 defines its
behavior). "Nested objects ... merged recursively — overlay's keys override
parent's same-named keys; keys absent in overlay retain parent's value. If
overlay's form is a bare string and parent's form is an object (or vice
versa), the overlay's representation wins wholesale." Scalars: overlay
replaces parent. -/
def mergeValue : Value → Value → Value
  | Value.obj p, Value.obj o => Value.obj (mergeEntries p o)
  | _, o => o

/-- Modelled from the spec: recursive dict merge, overlay entries applied in
order onto the parent dict (see `mergeValue`). -/
def mergeEntries (p : Obj) : Obj → Obj
  | [] => p
  | (k, v) :: rest =>
    match alLookup p k with
    | some pv => mergeEntries (alUpsert p k (mergeValue pv v)) rest
    | none => mergeEntries (p ++ [(k, v)]) rest
end

/-- The `module` identity key of a module-list entry, when the entry is a dict
with a string `module` field. -/
def entryModuleId (v : Value) : Option String :=
  match v with
  | Value.obj kvs =>
    match alLookup kvs "module" with
    | some (Value.str s) => some s
    | _ => none
  | _ => none

/-- First entry of a module list whose `module` id equals `mid` (mirrors the
`next((m for m in merged_section if isinstance(m, dict) and m.get("module") == module_id), None)`
pattern of `profile.py`). -/
def findModule (os : List Value) (mid : String) : Option Value :=
  os.find? fun oe => entryModuleId oe == some mid

/-- Modelled from the spec: how one parent module-list entry merges — when an
overlay entry shares its `module` key, merge field-by-field (the recursive
dict merge: an overlay `source` replaces the parent's only when present,
`config` dicts merge deeply), otherwise keep the parent entry. -/
def mergeParentEntry (os : List Value) (pe : Value) : Value :=
  match entryModuleId pe with
  | some mid =>
    match findModule os mid with
    | some oe => mergeValue pe oe
    | none => pe
  | none => pe

/-- An overlay module-list entry is appended as new exactly when no parent
entry shares its `module` key; entries without a `module` key are passed
through (a known gap, spec §9). -/
def entryIsNew (ps : List Value) (oe : Value) : Bool :=
  match entryModuleId oe with
  | some mid => !(ps.any fun pe => entryModuleId pe == some mid)
  | none => true

/-- Modelled from the spec: module-list merge of `merge_profile_dicts`, §4.1:
"treated as keyed collections identified by `module`. For each entry in
overlay: if no parent entry shares its `module` key: append as new (order:
parent entries first, in parent order; then new overlay entries, in overlay
order). If a parent entry shares the key: merge field-by-field". -/
def mergeModuleLists (ps os : List Value) : List Value :=
  ps.map (mergeParentEntry os) ++ os.filter (entryIsNew ps)

/-- The three module-list sections of a profile (spec §3). -/
def moduleSections : List String := ["providers", "tools", "hooks"]

/-- Modelled from the spec: one overlay entry `(k, v)` applied to the parent
dict at the top level of `merge_profile_dicts`. The module-list sections
`providers`/`tools`/`hooks` merge by `module` identity; every other key
merges by `mergeValue` (recursive dict merge / overlay-wins); a key absent
from the parent is appended. -/
def mergeTopStep (p : Obj) (k : String) (v : Value) : Obj :=
  match alLookup p k with
  | some pv =>
    if moduleSections.contains k then
      match pv, v with
      | Value.arr ps, Value.arr os => alUpsert p k (Value.arr (mergeModuleLists ps os))
      | _, _ => alUpsert p k (mergeValue pv v)
    else alUpsert p k (mergeValue pv v)
  | none => p ++ [(k, v)]

/-- Modelled from the spec: top level of `merge_profile_dicts`, applying the
overlay's entries in order. -/
def mergeTop (p : Obj) : Obj → Obj
  | [] => p
  | (k, v) :: rest => mergeTop (mergeTopStep p k v) rest

/-- Modelled from the spec: `amplifier_profiles.merger.merge_profile_dicts`
(parent, overlay) → merged, spec §4.1. -/
def merge_profile_dicts (parent overlay : Obj) : Obj := mergeTop parent overlay

/-- Python's `k in agent_filter` membership test for a list of values: `k`
(a string) compares equal only to equal string elements. -/
def containsStr (names : List Value) (s : String) : Bool :=
  names.any fun v =>
    match v with
    | Value.str t => t == s
    | _ => false

/-- `merge_configs` from `src/amplifier_app_cli/agent_config.py` (lines 15-58):
pops the overlay's `agents` Smart Single Value before the generic merge, then
reapplies it as a filter over the parent's resolved agents dict.
`parent.get("agents", {})` is modelled as the empty dict when the parent's
`agents` is absent (a non-dict value there would make Python's `.items()`
raise; the parent's `agents` is always the resolved dict form, spec §3). -/
def merge_configs (parent overlay : Obj) : Obj :=
  let agent_filter := alLookup overlay "agents"
  let overlay_copy := alErase overlay "agents"
  let result := merge_profile_dicts parent overlay_copy
  match agent_filter with
  | some (Value.str "none") => alUpsert result "agents" (Value.obj [])
  | some (Value.arr names) =>
    let parent_agents :=
      match alLookup parent "agents" with
      | some (Value.obj d) => d
      | _ => []
    alUpsert result "agents"
      (Value.obj (parent_agents.filter fun kv => containsStr names kv.1))
  | _ => result

/-- `value is None` — the sanitizer's drop sentinel test
(`if sanitized_item is not None` / `if sanitized_value is not None`). -/
def isNull (v : Value) : Bool :=
  match v with
  | Value.null => true
  | _ => false

/-- The `thinking_block` special case of `_sanitize_message` (lines 173-174):
when the raw block is a dict with a `text` subfield, that text is hoisted to
a `thinking_text` key of the sanitized message; the raw block itself is
always dropped. -/
def thinkingText (acc : Obj) (v : Value) : Obj :=
  match v with
  | Value.obj d =>
    match alLookup d "text" with
    | some t => alUpsert acc "thinking_text" t
    | none => acc
  | _ => acc

mutual

/-- `SessionStore._sanitize_value` (session_store.py lines 112-146): `None`
and the basic types pass through, dicts go through the message sanitizer,
lists are sanitized element-wise dropping elements that sanitize to `None`,
and any other value is kept only if `json.dumps` succeeds — a `raw` value
fails to serialize and becomes `None` (the drop sentinel). -/
def sanitizeValue : Value → Value
  | Value.null => Value.null
  | Value.bool b => Value.bool b
  | Value.num n => Value.num n
  | Value.str s => Value.str s
  | Value.obj kvs => Value.obj (sanitizeEntriesGo [] kvs)
  | Value.arr xs => Value.arr (sanitizeList xs)
  | Value.raw _ => Value.null

/-- The element-wise list sanitization of `_sanitize_value`: elements whose
sanitization is `None` are dropped (`if sanitized_item is not None`). -/
def sanitizeList : List Value → List Value
  | [] => []
  | x :: rest =>
    let x' := sanitizeValue x
    if isNull x' then sanitizeList rest else x' :: sanitizeList rest

/-- The dict branch of `SessionStore._sanitize_message` (lines 166-182): the
entries are walked in insertion order, building a fresh dict `acc` by Python
dict assignment; `thinking_block` hoists its `text` subfield to
`thinking_text` and is otherwise dropped, `content_blocks` is dropped
entirely, and every other entry keeps its sanitized value unless that value
sanitizes to `None`, in which case the entry is dropped. -/
def sanitizeEntriesGo (acc : Obj) : Obj → Obj
  | [] => acc
  | (k, v) :: rest =>
    if k = "thinking_block" then sanitizeEntriesGo (thinkingText acc v) rest
    else if k = "content_blocks" then sanitizeEntriesGo acc rest
    else
      let v' := sanitizeValue v
      if isNull v' then sanitizeEntriesGo acc rest
      else sanitizeEntriesGo (alUpsert acc k v') rest

end

/-- Entry sanitization starting from the empty fresh dict (`sanitized = {}`). -/
def sanitizeEntries (kvs : Obj) : Obj := sanitizeEntriesGo [] kvs

/-- `SessionStore._sanitize_message` applied to an arbitrary message value
(lines 148-163): dict messages go through the entry sanitizer; other values
go through the general sanitizer, with `{}` substituted when that yields
`None`. -/
def sanitizeMessage : Value → Value
  | Value.obj kvs => Value.obj (sanitizeEntriesGo [] kvs)
  | v =>
    let v' := sanitizeValue v
    if isNull v' then Value.obj [] else v'

/-- The persisted `transcript.jsonl` (or its `.backup`): either a readable
file whose non-empty lines each parse as one JSON message, or an
unreadable/unparseable file (OSError or JSONDecodeError on read). JSON
encode/decode of serializable values is taken as the identity, so a parseable
file is represented by its list of parsed lines. -/
inductive TranscriptFile where
  | ok (lines : List Value) : TranscriptFile
  | corrupt : TranscriptFile

/-- The persisted `metadata.json` (or its `.backup`): a readable JSON object,
or unreadable/unparseable content. -/
inductive MetadataFile where
  | ok (v : Value) : MetadataFile
  | corrupt : MetadataFile

/-- One session directory `<base>/<session_id>/`: the four store-owned files
(each possibly absent) and the directory's last-modification time
(`st_mtime`, as an integer timestamp; the model always knows it — the
stat-failure fallback of `list_sessions` is not exercised). -/
structure SessionDir where
  transcript : Option TranscriptFile
  transcriptBackup : Option TranscriptFile
  metadata : Option MetadataFile
  metadataBackup : Option MetadataFile
  mtime : Int

/-- The sessions base directory: its session subdirectories keyed by name, in
creation order. -/
structure Store where
  dirs : List (String × SessionDir)

/-- The session-id validation shared verbatim by `save`, `load`,
`save_profile` (raising `ValueError`) and `exists` (returning `False`):
`not session_id or not session_id.strip()` — i.e. every character is
whitespace, which includes the empty string — then the path-traversal
characters `"/" in session_id or "\\" in session_id or session_id in (".", "..")`
(character-level membership, modelled on the string's character list).
Returns the `ValueError` message when invalid. -/
def checkSessionId (sid : String) : Option String :=
  if sid.data.all Char.isWhitespace then some "session_id cannot be empty"
  else if sid.data.contains '/' || sid.data.contains '\\' || sid = "." || sid = ".." then
    some ("Invalid session_id: " ++ sid)
  else none

/-- The role of a message as read by `_save_transcript`
(`msg_dict.get("role")`): only a string role can compare equal to
`"system"`/`"developer"`. Messages are dicts (a non-dict message would be
`model_dump()`-ed into one; the model takes messages as already in dict
form, with non-dict values having no role). -/
def roleOf (m : Value) : Option String :=
  match m with
  | Value.obj kvs =>
    match alLookup kvs "role" with
    | some (Value.str r) => some r
    | _ => none
  | _ => none

/-- `msg_dict.get("role") in ("system", "developer")` — the internal-role
test of `_save_transcript` (line 208). -/
def isInternalRole (m : Value) : Bool :=
  roleOf m == some "system" || roleOf m == some "developer"

/-- The write callback of `_save_transcript` (lines 201-214): skip `system`
and `developer` role messages, sanitize the rest, one JSON line each. -/
def persistTranscript (transcript : List Value) : List Value :=
  transcript.filterMap fun m =>
    if isInternalRole m then none else some (sanitizeMessage m)

/-- `SessionStore._save_transcript` at the directory level: copy any existing
transcript to its `.backup` sibling (best-effort; modelled as succeeding),
then atomically replace the transcript with the filtered, sanitized lines. -/
def saveTranscriptDir (d : SessionDir) (transcript : List Value) : SessionDir :=
  let d1 :=
    match d.transcript with
    | some t => { d with transcriptBackup := some t }
    | none => d
  { d1 with transcript := some (TranscriptFile.ok (persistTranscript transcript)) }

/-- `SessionStore._save_metadata` at the directory level: backup then atomic
replace with the serialized metadata object. -/
def saveMetadataDir (d : SessionDir) (metadata : Value) : SessionDir :=
  let d1 :=
    match d.metadata with
    | some m => { d with metadataBackup := some m }
    | none => d
  { d1 with metadata := some (MetadataFile.ok metadata) }

/-- A directory as first created by `mkdir` (no files yet). -/
def emptyDir (mt : Int) : SessionDir :=
  { transcript := none, transcriptBackup := none, metadata := none,
    metadataBackup := none, mtime := mt }

/-- `SessionStore.save` (lines 82-110): validate the id (raising — modelled
as `some errorMessage` — before any filesystem effect, so the returned store
is the input store unchanged on error), create the directory if absent, then
write transcript and metadata. `mt` is the directory's resulting mtime. -/
def storeSave (st : Store) (sid : String) (transcript : List Value)
    (metadata : Value) (mt : Int) : Store × Option String :=
  match checkSessionId sid with
  | some err => (st, some err)
  | none =>
    let d0 :=
      match alLookup st.dirs sid with
      | some d => d
      | none => emptyDir mt
    let d1 := saveTranscriptDir d0 transcript
    let d2 := saveMetadataDir d1 metadata
    ({ dirs := alUpsert st.dirs sid { d2 with mtime := mt } }, none)

/-- `SessionStore._load_transcript` (lines 274-315): primary file, then the
`.backup` sibling, then the empty transcript; corruption never escapes. -/
def loadTranscriptDir (d : SessionDir) : List Value :=
  match d.transcript with
  | some (TranscriptFile.ok lines) => lines
  | _ =>
    match d.transcriptBackup with
    | some (TranscriptFile.ok lines) => lines
    | _ => []

/-- `SessionStore._load_metadata` (lines 317-353): primary, then backup, then
the minimal recovery object `{session_id, recovered: true, recovery_time}`
(`now` is the ISO timestamp `datetime.now(UTC).isoformat()`). -/
def loadMetadataDir (d : SessionDir) (sid now : String) : Value :=
  match d.metadata with
  | some (MetadataFile.ok v) => v
  | _ =>
    match d.metadataBackup with
    | some (MetadataFile.ok v) => v
    | _ => Value.obj
        [("session_id", Value.str sid), ("recovered", Value.bool true),
         ("recovery_time", Value.str now)]

/-- `SessionStore.load` (lines 240-272): id validation (same `ValueError`
messages as `save`), `FileNotFoundError` for a missing directory, then the
two recovery loaders. -/
def storeLoad (st : Store) (sid : String) (now : String) :
    Except String (List Value × Value) :=
  match checkSessionId sid with
  | some err => Except.error err
  | none =>
    match alLookup st.dirs sid with
    | none => Except.error ("Session '" ++ sid ++ "' not found")
    | some d => Except.ok (loadTranscriptDir d, loadMetadataDir d sid now)

/-- `SessionStore.exists` (lines 355-372): invalid ids give `False`, never an
error; otherwise test the session directory. -/
def storeExistsSession (st : Store) (sid : String) : Bool :=
  (checkSessionId sid).isNone && (alLookup st.dirs sid).isSome

/-- Python's `name.startswith(".")`, on the character list. -/
def startsWithDot (s : String) : Bool :=
  match s.data with
  | [] => false
  | c :: _ => c == '.'

/-- Insertion into a list sorted by descending mtime (models
`sessions.sort(key=lambda x: x[1], reverse=True)`; only the membership of the
result matters to the claims, not tie order). -/
def insertByMtime (x : String × Int) : List (String × Int) → List (String × Int)
  | [] => [x]
  | y :: ys => if x.2 > y.2 then x :: y :: ys else y :: insertByMtime x ys

/-- Descending-mtime sort of `list_sessions`. -/
def sortByMtime : List (String × Int) → List (String × Int)
  | [] => []
  | x :: xs => insertByMtime x (sortByMtime xs)

/-- `SessionStore.list_sessions` (lines 374-396): every subdirectory whose
name does not start with `.`, sorted newest-modified-first. -/
def storeListSessions (st : Store) : List String :=
  (sortByMtime ((st.dirs.filter fun nd => !startsWithDot nd.1).map
    fun nd => (nd.1, nd.2.mtime))).map Prod.fst

/-- `SessionStore.cleanup_old_sessions` (lines 437-476): negative `days`
raises; dot-prefixed directories are skipped; a directory is removed exactly
when `mtime < cutoff` (strictly older than the cutoff timestamp
`(now - timedelta(days)).timestamp()`, passed here abstractly). Individual
removals are modelled as succeeding. Returns the new store and the number of
sessions removed. -/
def storeCleanup (st : Store) (days : Int) (cutoff : Int) :
    Except String (Store × Nat) :=
  if days < 0 then Except.error "days must be non-negative"
  else
    Except.ok
      ({ dirs := st.dirs.filter fun nd => startsWithDot nd.1 || !(nd.2.mtime < cutoff) },
       (st.dirs.filter fun nd => !startsWithDot nd.1 && nd.2.mtime < cutoff).length)

/-- The outcome of the write callback handed to `_atomic_write`: it either
writes full content and returns, or raises after writing a prefix of it. -/
inductive WriteOutcome where
  | success (content : String) : WriteOutcome
  | failure (writtenSoFar : String) (err : String) : WriteOutcome

/-- `_atomic_write` (session_store.py lines 22-54) over a directory modelled
as filename-to-content: create the temp file (`tempfile.NamedTemporaryFile`
picks the fresh name `tempName` in the same directory), run the callback,
and either close-and-rename onto the target, or — on an exception — unlink
the temp file (best-effort; modelled as succeeding) and return the `OSError`
message `errorMsg ++ ": " ++ cause`. The first component is the directory
contents after the call. -/
def atomicWrite (dir : List (String × String)) (targetName tempName : String)
    (errorMsg : String) (w : WriteOutcome) :
    List (String × String) × Except String Unit :=
  match w with
  | WriteOutcome.success content =>
    let d1 := alUpsert dir tempName content
    (alUpsert (alErase d1 tempName) targetName content, Except.ok ())
  | WriteOutcome.failure writtenSoFar err =>
    let d1 := alUpsert dir tempName writtenSoFar
    (alErase d1 tempName, Except.error (errorMsg ++ ": " ++ err))

/-- `None`, booleans, numbers and strings: the values the sanitizer's first
branch passes through (`value is None or isinstance(value, bool | int | float | str)`). -/
def isPrimitive (v : Value) : Bool :=
  match v with
  | Value.null => true
  | Value.bool _ => true
  | Value.num _ => true
  | Value.str _ => true
  | _ => false

/-- A message is a dict without duplicate keys (true of every real Python
message dict); non-dict values carry no key constraint. -/
def msgWF (m : Value) : Bool :=
  match m with
  | Value.obj kvs => keysNodup kvs
  | _ => true

/-- A provenance value of `build_effective_config_with_sources`: either a
bare profile label, or the Python tuple `(current_label, previous)`. Session
and module provenance always collapse the previous entry to its first label
(so `prev` is a bare label there), but per-config-field provenance stores the
previous value uncollapsed (profile.py line 206), which can nest. -/
inductive Prov where
  | one (l : String) : Prov
  | two (cur : String) (prev : Prov) : Prov

/-- `old_source[0] if isinstance(old_source, tuple) else old_source`. -/
def Prov.first : Prov → String
  | Prov.one l => l
  | Prov.two c _ => c

/-- The `sources` dictionary of `build_effective_config_with_sources`
(profile.py lines 127-134): provenance per session field, per module of each
module-list section, for the agents section as one opaque unit, per config
field (keyed by the string `section.module`), plus the `config_modified_by`
side map. `agents = none` models the initial `{}` placeholder. -/
structure Sources where
  session : List (String × Prov)
  providers : List (String × Prov)
  tools : List (String × Prov)
  hooks : List (String × Prov)
  agents : Option Prov
  configFields : List (String × List (String × Prov))
  configModifiedBy : List (String × List (String × String))

/-- `sources[section]` for a module-list section name. -/
def Sources.getSection (s : Sources) (c : String) : List (String × Prov) :=
  if c = "providers" then s.providers
  else if c = "tools" then s.tools
  else if c = "hooks" then s.hooks
  else []

/-- `sources[section] = ...` for a module-list section name. -/
def Sources.updSection (s : Sources) (c : String)
    (g : List (String × Prov) → List (String × Prov)) : Sources :=
  if c = "providers" then { s with providers := g s.providers }
  else if c = "tools" then { s with tools := g s.tools }
  else if c = "hooks" then { s with hooks := g s.hooks }
  else s

/-- `merged_so_far.get("session", {})` viewed as a dict (non-dict session
values cannot arise from well-formed chains). -/
def sessionFieldsOf (d : Obj) : Obj :=
  match alLookup d "session" with
  | some (Value.obj s) => s
  | _ => []

/-- A module-list section of a profile or of the merged state, as a list
(`if isinstance(items, list)` / `merged_so_far.get(section, [])`). -/
def sectionItemsOf (d : Obj) (c : String) : List Value :=
  match alLookup d c with
  | some (Value.arr l) => l
  | _ => []

/-- Session-field provenance tracking of one chain member (profile.py lines
142-155): a field not yet present in `merged_so_far["session"]` is new and
attributed to this profile; an already-present field is recorded as the tuple
`(profile_name, first label of its previous provenance)`. The `.getD` default
covers a state Python would reach only via `KeyError` (a field present in the
merged session but never recorded), which well-formed chains never produce. -/
def recordSession (name : String) (profile merged : Obj)
    (src : List (String × Prov)) : List (String × Prov) :=
  match alLookup profile "session" with
  | some (Value.obj sess) =>
    sess.foldl
      (fun acc kv =>
        if alHasKey (sessionFieldsOf merged) kv.1 then
          alUpsert acc kv.1
            (Prov.two name (Prov.one (((alLookup acc kv.1).getD (Prov.one "")).first)))
        else alUpsert acc kv.1 (Prov.one name))
      src
  | _ => src

/-- Module-entry provenance tracking for one item of one module-list section
(profile.py lines 162-212). Items that are not dicts with a string `module`
key are skipped (Python would key a non-string id verbatim; well-formed
profiles have string ids). A module new to the merged state is attributed to
this profile and gets an empty per-config-field map; for an existing module,
an explicit `source` reassigns the module to this profile as
`(profile_name, old_first)`, a config-only edit keeps the old attribution
(collapsed to its first label) and records this profile in
`config_modified_by`, and each touched config field is tracked under
`section.module`: new fields get this profile's label, existing ones the
tuple `(profile_name, previous_field_value_or_old_first)`. -/
def recordModuleNew (name c : String) (s : Sources) (mid : String) : Sources :=
  let s1 := Sources.updSection s c (fun m => alUpsert m mid (Prov.one name))
  { s1 with configFields := alUpsert s1.configFields (c ++ "." ++ mid) [] }

/-- The config dict of an existing merged module entry
(`existing_module.get("config", {})`, profile.py line 202). -/
def existingConfigOf (em : Value) : Obj :=
  match em with
  | Value.obj ekvs =>
    match alLookup ekvs "config" with
    | some (Value.obj ec) => ec
    | _ => []
  | _ => []

/-- Per-config-field provenance update (profile.py lines 201-212). -/
def recordConfigFields (name : String) (existingCfg : Obj) (old : String)
    (fields0 : List (String × Prov)) (cfg : Obj) : List (String × Prov) :=
  cfg.foldl
    (fun fl kv =>
      if alHasKey existingCfg kv.1 then
        alUpsert fl kv.1 (Prov.two name ((alLookup fl kv.1).getD (Prov.one old)))
      else alUpsert fl kv.1 (Prov.one name))
    fields0

/-- The existing-module branch (profile.py lines 177-212). -/
def recordModuleExisting (name c : String) (s : Sources) (ikvs : Obj)
    (mid : String) (em : Value) : Sources :=
  let old := ((alLookup (Sources.getSection s c) mid).getD (Prov.one "")).first
  let s1 :=
    if alHasKey ikvs "source" then
      Sources.updSection s c (fun m => alUpsert m mid (Prov.two name (Prov.one old)))
    else if alHasKey ikvs "config" then
      let su := Sources.updSection s c (fun m => alUpsert m mid (Prov.one old))
      let cmb := alUpsert ((alLookup su.configModifiedBy c).getD []) mid name
      { su with configModifiedBy := alUpsert su.configModifiedBy c cmb }
    else s
  match alLookup ikvs "config" with
  | some (Value.obj cfg) =>
    let key := c ++ "." ++ mid
    let fields1 := recordConfigFields name (existingConfigOf em) old
      ((alLookup s1.configFields key).getD []) cfg
    { s1 with configFields := alUpsert s1.configFields key fields1 }
  | _ => s1

/-- Provenance update for one module id of one section (profile.py lines
164-212). -/
def recordModuleId (name c : String) (merged : Obj) (s : Sources)
    (ikvs : Obj) (mid : String) : Sources :=
  match findModule (sectionItemsOf merged c) mid with
  | none => recordModuleNew name c s mid
  | some em => recordModuleExisting name c s ikvs mid em

def recordModuleItem (name c : String) (merged : Obj) (s : Sources)
    (item : Value) : Sources :=
  match item with
  | Value.obj ikvs =>
    match alLookup ikvs "module" with
    | some (Value.str mid) => recordModuleId name c merged s ikvs mid
    | _ => s
  | _ => s

/-- One module-list section of one chain member (profile.py lines 158-161). -/
def recordSection (name c : String) (profile merged : Obj) (s : Sources) : Sources :=
  (sectionItemsOf profile c).foldl (recordModuleItem name c merged) s

/-- Agents provenance of one chain member (profile.py lines 214-222): tracked
as one opaque unit with the same new-vs-override logic. The `""` default
models `sources.get("agents", "")` hitting the initial placeholder, which
well-formed chains never reach. -/
def recordAgents (name : String) (profile merged : Obj) (s : Sources) : Sources :=
  if alHasKey profile "agents" then
    if alHasKey merged "agents" then
      { s with agents := some (Prov.two name (Prov.one ((s.agents.map Prov.first).getD ""))) }
    else { s with agents := some (Prov.one name) }
  else s

/-- The accumulator of the chain walk: the provenance recorded so far and
`merged_so_far`. -/
structure BuildState where
  sources : Sources
  merged : Obj

/-- One iteration of the chain loop (profile.py lines 139-225): session
fields, the three module-list sections in order, agents, then merge the
member into the running total. -/
def processMember (st : BuildState) (profile : Obj) (name : String) : BuildState :=
  let s1 := { st.sources with
    session := recordSession name profile st.merged st.sources.session }
  let s2 := recordSection name "providers" profile st.merged s1
  let s3 := recordSection name "tools" profile st.merged s2
  let s4 := recordSection name "hooks" profile st.merged s3
  let s5 := recordAgents name profile st.merged s4
  { sources := s5, merged := merge_profile_dicts st.merged profile }

/-- The reshaped effective configuration (profile.py lines 227-253). -/
structure EffectiveConfig where
  session : Value
  providers : Obj
  tools : Obj
  hooks : Obj
  agents : Obj
  agentDirs : Option Value

/-- `{item[key]: item for item in xs if ...}` — a list of entry dicts keyed
by one of their string fields, later duplicates overwriting earlier ones. -/
def itemsByKey (key : String) (xs : List Value) : Obj :=
  xs.foldl
    (fun acc it =>
      match it with
      | Value.obj kvs =>
        match alLookup kvs key with
        | some (Value.str s) => alUpsert acc s it
        | _ => acc
      | _ => acc)
    []

/-- Reshaping of the final merged state: module lists become mappings keyed
by `module`; an `agents` dict of shape `{dirs, items}` becomes a mapping
keyed by agent `name`, with `dirs` preserved as `agent_dirs`. -/
def mkEffectiveConfig (merged : Obj) : EffectiveConfig :=
  let agentsPart :=
    match alLookup merged "agents" with
    | some (Value.obj ac) =>
      (itemsByKey "name"
        (match alLookup ac "items" with
         | some (Value.arr l) => l
         | _ => []),
       alLookup ac "dirs")
    | _ => ([], none)
  { session := (alLookup merged "session").getD (Value.obj []),
    providers := itemsByKey "module" (sectionItemsOf merged "providers"),
    tools := itemsByKey "module" (sectionItemsOf merged "tools"),
    hooks := itemsByKey "module" (sectionItemsOf merged "hooks"),
    agents := agentsPart.1,
    agentDirs := agentsPart.2 }

/-- The empty `sources` dictionary (profile.py lines 127-134). -/
def initialSources : Sources :=
  { session := [], providers := [], tools := [], hooks := [],
    agents := none, configFields := [], configModifiedBy := [] }

/-- `build_effective_config_with_sources` (profile.py lines 103-255): walk
the zipped chain (`zip(..., strict=False)` truncates to the shorter list),
then reshape the merged total. -/
def build_effective_config_with_sources (chainDicts : List Obj)
    (chainNames : List String) : EffectiveConfig × Sources :=
  let final := (chainDicts.zip chainNames).foldl
    (fun st pn => processMember st pn.1 pn.2)
    { sources := initialSources, merged := [] }
  (mkEffectiveConfig final.merged, final.sources)

/-- The value the top-level merge gives key `k` when the overlay supplies `v`
there and the parent supplies `pv?` (mirrors the per-key branch of
`mergeTop`). -/
def combineTop (k : String) (pv? : Option Value) (v : Value) : Value :=
  match pv? with
  | none => v
  | some pv =>
    if moduleSections.contains k then
      match pv, v with
      | Value.arr ps, Value.arr os => Value.arr (mergeModuleLists ps os)
      | _, _ => mergeValue pv v
    else mergeValue pv v

/-- A chain member is shaped like a real profile dict for session tracking:
its top-level keys are distinct, and its `session` value, when present, is a
dict with distinct keys. -/
def wfSession (p : Obj) : Bool :=
  keysNodup p &&
    (match alLookup p "session" with
     | some (Value.obj s) => keysNodup s
     | some _ => false
     | none => true)

/-- The labels of the chain members that set session field `f` (members whose
`session` dict contains the key `f`), in chain order. -/
def sessionSetters (chain : List (Obj × String)) (f : String) : List String :=
  (chain.filter fun pn => alHasKey (sessionFieldsOf pn.1) f).map Prod.snd

/-- The provenance the tracker is specified to record for a field given the
ordered list of labels that set it: nobody — absent; exactly one — that
label; two or more — the tuple `(last setter, the setter immediately before)`. -/
def provOfSetters (ls : List String) : Option Prov :=
  match ls.reverse with
  | [] => none
  | [l] => some (Prov.one l)
  | l :: l' :: _ => some (Prov.two l (Prov.one l'))

/-- Invariant of the chain walk w.r.t. session fields: the recorded session
provenance matches the setter history of the processed prefix, a field is in
the merged session exactly when someone set it, and the merged `session`
value stays a dict. -/
def SessionInv (chain : List (Obj × String)) (st : BuildState) : Prop :=
  (∀ f, alLookup st.sources.session f = provOfSetters (sessionSetters chain f)) ∧
  (∀ f, alHasKey (sessionFieldsOf st.merged) f = true ↔ sessionSetters chain f ≠ []) ∧
  (∀ v, alLookup st.merged "session" = some v → ∃ s0, v = Value.obj s0)

/-- The `module` ids appearing in a module list are pairwise distinct (true
of any well-formed profile: the id is the list's identity key). -/
def entryIdsNodup : List Value → Bool
  | [] => true
  | it :: rest =>
    (match entryModuleId it with
     | some mid => !(rest.any fun it' => entryModuleId it' == some mid)
     | none => true) && entryIdsNodup rest

/-- A well-formed module list: distinct ids and every dict entry has distinct
keys. -/
def itemsWF (items : List Value) : Bool :=
  entryIdsNodup items &&
    items.all fun it =>
      match it with
      | Value.obj kvs => keysNodup kvs
      | _ => true

/-- Section `c` of a profile is absent or a well-formed module list. -/
def wfSectionOf (p : Obj) (c : String) : Bool :=
  match alLookup p c with
  | some (Value.arr items) => itemsWF items
  | some _ => false
  | none => true

/-- A chain member is shaped like a real profile dict for module-list
tracking: distinct top-level keys and well-formed module-list sections. -/
def wfSections (p : Obj) : Bool :=
  keysNodup p && wfSectionOf p "providers" && wfSectionOf p "tools" &&
    wfSectionOf p "hooks"

/-- The entry a chain member supplies for module `x` in section `c`. -/
def entryFor (p : Obj) (c x : String) : Option Value :=
  findModule (sectionItemsOf p c) x

/-- The module provenance recorded for `x` in section `c`. -/
def modProvAt (s : Sources) (c x : String) : Option Prov :=
  alLookup (s.getSection c) x

/-- The per-config-field provenance map recorded under `section.module`. -/
def cfgFieldsAt (s : Sources) (c x : String) : Option (List (String × Prov)) :=
  alLookup s.configFields (c ++ "." ++ x)

theorem alLookup_upsert_self {α : Type} (d : List (String × α)) (k : String) (v : α) :
    alLookup (alUpsert d k v) k = some v := by
  induction d with
  | nil => simp [alUpsert, alLookup]
  | cons kv rest ih =>
    by_cases h : kv.1 = k
    · simp [alUpsert, alLookup, h]
    · simp [alUpsert, alLookup, h, ih]

theorem alLookup_upsert_ne {α : Type} (d : List (String × α)) (k k' : String) (v : α)
    (h : k ≠ k') : alLookup (alUpsert d k v) k' = alLookup d k' := by
  induction d with
  | nil => simp [alUpsert, alLookup, h]
  | cons kv rest ih =>
    by_cases hk : kv.1 = k
    · simp [alUpsert, alLookup, hk, h]
    · by_cases hk' : kv.1 = k'
      · have hne : ¬(k' = k) := fun e => hk (hk'.trans e)
        simp [alUpsert, alLookup, hk, hk', hne]
      · simp [alUpsert, alLookup, hk, hk', ih]

theorem alLookup_append {α : Type} (p q : List (String × α)) (k : String) :
    alLookup (p ++ q) k =
      match alLookup p k with
      | some v => some v
      | none => alLookup q k := by
  induction p with
  | nil => simp [alLookup]
  | cons kv rest ih =>
    by_cases h : kv.1 = k
    · simp [alLookup, h]
    · simp [alLookup, h, ih]

theorem alLookup_eq_none_of_erase {α : Type} (d : List (String × α)) (k : String) :
    alLookup (alErase d k) k = none := by
  induction d with
  | nil => simp [alErase, alLookup]
  | cons kv rest ih =>
    by_cases h : kv.1 = k
    · simp [alErase, h, ih]
    · simp [alErase, alLookup, h, ih]

theorem alLookup_erase_ne {α : Type} (d : List (String × α)) (k k' : String) (h : k ≠ k') :
    alLookup (alErase d k) k' = alLookup d k' := by
  induction d with
  | nil => simp [alErase]
  | cons kv rest ih =>
    by_cases hk : kv.1 = k
    · simp [alErase, alLookup, hk, h, ih]
    · by_cases hk' : kv.1 = k'
      · have hne : ¬(k' = k) := fun e => hk (hk'.trans e)
        simp [alErase, alLookup, hk, hk', hne]
      · simp [alErase, alLookup, hk, hk', ih]

theorem mem_erase_key_ne {α : Type} (d : List (String × α)) (k : String) :
    ∀ kv ∈ alErase d k, kv.1 ≠ k := by
  induction d with
  | nil => intro kv h; simp [alErase] at h
  | cons kv0 rest ih =>
    intro kv h
    by_cases hk : kv0.1 = k
    · rw [alErase, if_pos hk] at h
      exact ih kv h
    · rw [alErase, if_neg hk] at h
      rcases List.mem_cons.mp h with h1 | h2
      · rw [h1]; exact hk
      · exact ih kv h2

theorem alErase_of_lookup_none {α : Type} (d : List (String × α)) (k : String)
    (h : alLookup d k = none) : alErase d k = d := by
  induction d with
  | nil => simp [alErase]
  | cons kv rest ih =>
    rw [alLookup] at h
    by_cases hk : kv.1 = k
    · rw [if_pos hk] at h; exact absurd h (by simp)
    · rw [if_neg hk] at h
      simp [alErase, hk, ih h]

theorem alUpsert_of_lookup_none {α : Type} (d : List (String × α)) (k : String) (v : α)
    (h : alLookup d k = none) : alUpsert d k v = d ++ [(k, v)] := by
  induction d with
  | nil => simp [alUpsert]
  | cons kv rest ih =>
    rw [alLookup] at h
    by_cases hk : kv.1 = k
    · rw [if_pos hk] at h; exact absurd h (by simp)
    · rw [if_neg hk] at h
      simp [alUpsert, hk, ih h]

theorem alLookup_mergeTopStep_ne (p : Obj) (k : String) (v : Value) (k' : String)
    (hk : k ≠ k') : alLookup (mergeTopStep p k v) k' = alLookup p k' := by
  rw [mergeTopStep]
  cases hl : alLookup p k with
  | some pv =>
    simp only [hl]
    by_cases hms : moduleSections.contains k = true
    · rw [if_pos hms]
      cases pv <;> cases v <;> exact alLookup_upsert_ne _ _ _ _ hk
    · rw [if_neg hms]
      exact alLookup_upsert_ne _ _ _ _ hk
  | none =>
    simp only [hl]
    rw [alLookup_append]
    cases hpk : alLookup p k' with
    | some w => simp
    | none => simp [alLookup, hk]

theorem lookup_mergeTop_of_no_key (o : Obj) (k : String) (h : ∀ kv ∈ o, kv.1 ≠ k) :
    ∀ p : Obj, alLookup (mergeTop p o) k = alLookup p k := by
  induction o with
  | nil => intro p; rfl
  | cons kv rest ih =>
    intro p
    have hk : kv.1 ≠ k := h kv (List.mem_cons_self kv rest)
    have hrest : ∀ kv' ∈ rest, kv'.1 ≠ k := fun kv' hm => h kv' (List.mem_cons_of_mem kv hm)
    rcases kv with ⟨k1, v1⟩
    rw [mergeTop, ih hrest, alLookup_mergeTopStep_ne _ _ _ _ hk]

/-- C7: for every parent ConfigNode of any shape, `merge(parent, {})` with the
empty overlay returns a result equal to the parent — the empty overlay is a
right identity of `merge_configs` (agent_config.py lines 15-58; the generic
merge is spec-modelled, and spec §8 asserts this identity for it). -/
theorem merge_empty_overlay_identity (parent : Obj) : merge_configs parent [] = parent := rfl

/-- C1: `merge_configs(parent, overlay)` sets the result's `agents` by the
overlay's agents filter (agent_config.py lines 41-58): absent or `"all"` keeps
the parent's resolved agents dict unchanged, `"none"` empties it, and a list
of names restricts the parent's dict to the listed keys, silently dropping
names absent from the parent (the result is exactly the order-preserving
restriction of the parent's mapping, so unknown names contribute nothing and
no error is possible). -/
theorem merge_configs_agents_filter (parent overlay : Obj) (pa : Obj)
    (hpa : alLookup parent "agents" = some (Value.obj pa)) :
    (alLookup overlay "agents" = none →
      alLookup (merge_configs parent overlay) "agents" = some (Value.obj pa)) ∧
    (alLookup overlay "agents" = some (Value.str "all") →
      alLookup (merge_configs parent overlay) "agents" = some (Value.obj pa)) ∧
    (alLookup overlay "agents" = some (Value.str "none") →
      alLookup (merge_configs parent overlay) "agents" = some (Value.obj [])) ∧
    (∀ names : List Value, alLookup overlay "agents" = some (Value.arr names) →
      alLookup (merge_configs parent overlay) "agents" =
        some (Value.obj (pa.filter fun kv => containsStr names kv.1))) := by
  have hbase : alLookup (merge_profile_dicts parent (alErase overlay "agents")) "agents"
      = some (Value.obj pa) := by
    rw [merge_profile_dicts,
      lookup_mergeTop_of_no_key _ _ (mem_erase_key_ne overlay "agents") parent, hpa]
  refine ⟨?_, ?_, ?_, ?_⟩
  · intro hov
    simp only [merge_configs, hov]
    exact hbase
  · intro hov
    simp only [merge_configs, hov]
    exact hbase
  · intro hov
    simp only [merge_configs, hov]
    exact alLookup_upsert_self _ _ _
  · intro names hov
    simp only [merge_configs, hov, hpa]
    exact alLookup_upsert_self _ _ _

/-- Witness for C1: a concrete parent with agents `{foo, bar}` and an overlay
filter `["foo", "baz"]` produce exactly `{foo}` — the unknown name `baz` is
silently dropped. -/
theorem merge_configs_agents_filter_witness :
    alLookup (merge_configs
        [("agents", Value.obj [("foo", Value.obj []), ("bar", Value.obj [])])]
        [("agents", Value.arr [Value.str "foo", Value.str "baz"])]) "agents"
      = some (Value.obj [("foo", Value.obj [])]) :=
  (merge_configs_agents_filter
      [("agents", Value.obj [("foo", Value.obj []), ("bar", Value.obj [])])]
      [("agents", Value.arr [Value.str "foo", Value.str "baz"])]
      [("foo", Value.obj []), ("bar", Value.obj [])] rfl).2.2.2
    [Value.str "foo", Value.str "baz"] rfl

theorem alErase_append {α : Type} (p q : List (String × α)) (k : String) :
    alErase (p ++ q) k = alErase p k ++ alErase q k := by
  induction p with
  | nil => simp [alErase]
  | cons kv rest ih =>
    by_cases h : kv.1 = k
    · simp [alErase, h, ih]
    · simp [alErase, h, ih]

/-- C4: if the write callback raises partway through, `_atomic_write` leaves
the directory exactly as it was before the call — so the destination file's
content is unchanged and no stray temp file remains — and raises an `OSError`
whose message wraps the original cause (session_store.py lines 22-54;
`tempName` is the fresh name `NamedTemporaryFile` chose, so it does not
already exist in the directory). -/
theorem atomic_write_failure_atomic (dir : List (String × String))
    (targetName tempName errorMsg writtenSoFar err : String)
    (hfresh : alLookup dir tempName = none) :
    atomicWrite dir targetName tempName errorMsg
        (WriteOutcome.failure writtenSoFar err)
      = (dir, Except.error (errorMsg ++ ": " ++ err)) := by
  rw [atomicWrite, alUpsert_of_lookup_none _ _ _ hfresh, alErase_append,
    alErase_of_lookup_none _ _ hfresh]
  simp [alErase]

/-- Witness for C4: a failing transcript write leaves `transcript.jsonl`
holding its old content, removes the temp file, and raises the wrapped
message. -/
theorem atomic_write_failure_atomic_witness :
    atomicWrite [("transcript.jsonl", "old")] "transcript.jsonl"
        "transcript_k3j.tmp" "Failed to save transcript"
        (WriteOutcome.failure "partial line" "disk full")
      = ([("transcript.jsonl", "old")],
         Except.error "Failed to save transcript: disk full") :=
  atomic_write_failure_atomic [("transcript.jsonl", "old")] "transcript.jsonl"
    "transcript_k3j.tmp" "Failed to save transcript" "partial line" "disk full" rfl

/-- C9: an empty session id, one containing a path separator, or exactly
`.`/`..` makes `save` raise its validation error with the store untouched
(the check precedes `mkdir` and every write), makes `load` raise the same
validation error, and makes `exists` return `false` rather than raising
(session_store.py lines 94-102, 254-259, 364-369). -/
theorem invalid_session_id_rejection (st : Store) (sid : String)
    (transcript : List Value) (metadata : Value) (mt : Int) (now : String)
    (h : sid = "" ∨ sid.data.contains '/' = true ∨ sid.data.contains '\\' = true ∨
         sid = "." ∨ sid = "..") :
    ∃ e, checkSessionId sid = some e ∧
      storeSave st sid transcript metadata mt = (st, some e) ∧
      storeLoad st sid now = Except.error e ∧
      storeExistsSession st sid = false := by
  have hsome : ∃ e, checkSessionId sid = some e := by
    by_cases hws : sid.data.all Char.isWhitespace = true
    · exact ⟨_, by rw [checkSessionId, if_pos hws]⟩
    · rcases h with h | h | h | h | h
      · exact absurd (by rw [h]; decide) hws
      · have hm : '/' ∈ sid.data := by simpa using h
        exact ⟨"Invalid session_id: " ++ sid, by simp [checkSessionId, hws, hm]⟩
      · have hm : '\\' ∈ sid.data := by simpa using h
        exact ⟨"Invalid session_id: " ++ sid, by simp [checkSessionId, hws, hm]⟩
      · subst h; exact ⟨"Invalid session_id: .", by decide⟩
      · subst h; exact ⟨"Invalid session_id: ..", by decide⟩
  obtain ⟨e, he⟩ := hsome
  exact ⟨e, he, by simp [storeSave, he], by simp [storeLoad, he],
    by simp [storeExistsSession, he]⟩

/-- Witness for C9: `save("../x", [], {})` is rejected with
`Invalid session_id: ../x` before any filesystem effect, `load` fails the
same way, and `exists` is `false`. -/
theorem invalid_session_id_rejection_witness :
    ∃ e, checkSessionId "../x" = some e ∧
      storeSave ⟨[]⟩ "../x" [] (Value.obj []) 0 = (⟨[]⟩, some e) ∧
      storeLoad ⟨[]⟩ "../x" "2025-01-01T00:00:00" = Except.error e ∧
      storeExistsSession ⟨[]⟩ "../x" = false :=
  invalid_session_id_rejection ⟨[]⟩ "../x" [] (Value.obj []) 0 "2025-01-01T00:00:00"
    (Or.inr (Or.inl (by decide)))

theorem mem_insertByMtime (x y : String × Int) (l : List (String × Int)) :
    y ∈ insertByMtime x l ↔ y = x ∨ y ∈ l := by
  induction l with
  | nil => simp [insertByMtime]
  | cons z zs ih =>
    by_cases h : x.2 > z.2
    · simp [insertByMtime, h]
    · simp only [insertByMtime, if_neg h, List.mem_cons, ih]
      tauto

theorem mem_sortByMtime (y : String × Int) (l : List (String × Int)) :
    y ∈ sortByMtime l ↔ y ∈ l := by
  induction l with
  | nil => simp [sortByMtime]
  | cons z zs ih => simp [sortByMtime, mem_insertByMtime, ih]

theorem alLookup_filter_true {α : Type} (l : List (String × α))
    (P : String × α → Bool) (k : String) (hP : ∀ v, P (k, v) = true) :
    alLookup (l.filter P) k = alLookup l k := by
  induction l with
  | nil => simp
  | cons kv rest ih =>
    by_cases hk : kv.1 = k
    · have hkv : kv = (k, kv.2) := by
        rcases kv with ⟨a, b⟩; simp only [] at hk; rw [hk]
      rw [hkv, List.filter_cons, hP kv.2]
      simp [alLookup]
    · by_cases hp : P kv = true
      · rw [List.filter_cons, hp]
        simp only [if_true, alLookup, hk, if_neg hk, ih]
      · rw [List.filter_cons]
        simp only [hp]
        rw [alLookup, if_neg hk] at *
        simp [ih]

/-- C10: a session id that starts with `.` but passes validation saves
successfully and `exists` reports it, yet `list_sessions` never lists it and
`cleanup_old_sessions` never removes it, whatever the cutoff — both batch
operations skip dot-prefixed directories (session_store.py lines 385, 459). -/
theorem dot_prefixed_sessions_hidden (st : Store) (sid : String)
    (transcript : List Value) (metadata : Value) (mt : Int)
    (hdot : startsWithDot sid = true) (hvalid : checkSessionId sid = none) :
    (storeSave st sid transcript metadata mt).2 = none ∧
    storeExistsSession (storeSave st sid transcript metadata mt).1 sid = true ∧
    sid ∉ storeListSessions (storeSave st sid transcript metadata mt).1 ∧
    (∀ days cutoff : Int, 0 ≤ days →
      ∃ stn, storeCleanup (storeSave st sid transcript metadata mt).1 days cutoff
          = Except.ok stn ∧ (alLookup stn.1.dirs sid).isSome = true) := by
  simp only [storeSave, hvalid]
  refine ⟨by trivial, ?_, ?_, ?_⟩
  · simp [storeExistsSession, hvalid, alLookup_upsert_self]
  · intro hmem
    simp only [storeListSessions, List.mem_map] at hmem
    obtain ⟨pair, hpair, hfst⟩ := hmem
    rw [mem_sortByMtime] at hpair
    simp only [List.mem_map, List.mem_filter] at hpair
    obtain ⟨nd, ⟨_, hnd⟩, hpeq⟩ := hpair
    rw [← hpeq] at hfst
    simp only [] at hfst
    rw [hfst, hdot] at hnd
    simp at hnd
  · intro days cutoff hdays
    have hneg : ¬(days < 0) := by omega
    refine ⟨_, by rw [storeCleanup, if_neg hneg], ?_⟩
    rw [alLookup_filter_true _ _ sid (fun v => by simp [hdot]), alLookup_upsert_self]
    rfl

/-- Witness for C10: the id `.hidden` saves and exists, is not listed, and a
cleanup with cutoff far in the future still keeps it. -/
theorem dot_prefixed_sessions_hidden_witness :
    (storeSave ⟨[]⟩ ".hidden" [] (Value.obj []) 5).2 = none ∧
    storeExistsSession (storeSave ⟨[]⟩ ".hidden" [] (Value.obj []) 5).1 ".hidden" = true ∧
    ".hidden" ∉ storeListSessions (storeSave ⟨[]⟩ ".hidden" [] (Value.obj []) 5).1 ∧
    (∀ days cutoff : Int, 0 ≤ days →
      ∃ stn, storeCleanup (storeSave ⟨[]⟩ ".hidden" [] (Value.obj []) 5).1 days cutoff
          = Except.ok stn ∧ (alLookup stn.1.dirs ".hidden").isSome = true) :=
  dot_prefixed_sessions_hidden ⟨[]⟩ ".hidden" [] (Value.obj []) 5 (by decide) (by decide)

/-- C5: for an existing session directory and a valid id, `load` returns a
usable pair whatever the state of the four files: the transcript comes from
the primary file when it is readable, else from the `.backup`, else it is the
empty list; the metadata likewise falls back to the backup and then to the
minimal `{session_id, recovered: true, recovery_time}` object. Corrupted
content never raises (session_store.py lines 274-353). -/
theorem load_never_fails_on_corruption (st : Store) (sid now : String)
    (d : SessionDir) (hvalid : checkSessionId sid = none)
    (hdir : alLookup st.dirs sid = some d) :
    ∃ t m, storeLoad st sid now = Except.ok (t, m) ∧
      (∀ ls, d.transcript = some (TranscriptFile.ok ls) → t = ls) ∧
      ((d.transcript = none ∨ d.transcript = some TranscriptFile.corrupt) →
        ∀ ls, d.transcriptBackup = some (TranscriptFile.ok ls) → t = ls) ∧
      ((d.transcript = none ∨ d.transcript = some TranscriptFile.corrupt) →
        (d.transcriptBackup = none ∨ d.transcriptBackup = some TranscriptFile.corrupt) →
        t = []) ∧
      (∀ v, d.metadata = some (MetadataFile.ok v) → m = v) ∧
      ((d.metadata = none ∨ d.metadata = some MetadataFile.corrupt) →
        ∀ v, d.metadataBackup = some (MetadataFile.ok v) → m = v) ∧
      ((d.metadata = none ∨ d.metadata = some MetadataFile.corrupt) →
        (d.metadataBackup = none ∨ d.metadataBackup = some MetadataFile.corrupt) →
        m = Value.obj
          [("session_id", Value.str sid), ("recovered", Value.bool true),
           ("recovery_time", Value.str now)]) := by
  refine ⟨loadTranscriptDir d, loadMetadataDir d sid now, ?_, ?_, ?_, ?_, ?_, ?_, ?_⟩
  · rw [storeLoad, hvalid, hdir]
  · intro ls hls; rw [loadTranscriptDir, hls]
  · rintro (h | h) ls hls <;> rw [loadTranscriptDir, h, hls]
  · rintro (h | h) (hb | hb) <;> rw [loadTranscriptDir, h, hb]
  · intro v hv; rw [loadMetadataDir, hv]
  · rintro (h | h) v hv <;> rw [loadMetadataDir, h, hv]
  · rintro (h | h) (hb | hb) <;> rw [loadMetadataDir, h, hb]

/-- Witness for C5: a session whose primary transcript and metadata are both
corrupted and whose backups are a readable transcript but a corrupted
metadata loads the backup transcript and the minimal recovery metadata,
without error. -/
theorem load_never_fails_on_corruption_witness :
    ∃ t m,
      storeLoad
          ⟨[("s1",
            { transcript := some TranscriptFile.corrupt,
              transcriptBackup := some (TranscriptFile.ok [Value.obj [("role", Value.str "user")]]),
              metadata := some MetadataFile.corrupt,
              metadataBackup := some MetadataFile.corrupt,
              mtime := 0 })]⟩ "s1" "2025-01-01T00:00:00"
        = Except.ok (t, m) ∧
      t = [Value.obj [("role", Value.str "user")]] ∧
      m = Value.obj
        [("session_id", Value.str "s1"), ("recovered", Value.bool true),
         ("recovery_time", Value.str "2025-01-01T00:00:00")] := by
  obtain ⟨t, m, hload, _, hbk, _, _, _, hmin⟩ :=
    load_never_fails_on_corruption
      ⟨[("s1",
        { transcript := some TranscriptFile.corrupt,
          transcriptBackup := some (TranscriptFile.ok [Value.obj [("role", Value.str "user")]]),
          metadata := some MetadataFile.corrupt,
          metadataBackup := some MetadataFile.corrupt,
          mtime := 0 })]⟩ "s1" "2025-01-01T00:00:00" _ (by decide) rfl
  exact ⟨t, m, hload, hbk (Or.inr rfl) _ rfl, hmin (Or.inr rfl) (Or.inr rfl)⟩

theorem sanitizeValue_primitive (v : Value) (h : isPrimitive v = true) :
    sanitizeValue v = v := by
  cases v <;> first | rfl | simp [isPrimitive] at h

/-- Counterexample to C8 as stated: a `none` element of a sequence does not
pass through unchanged — `_sanitize_value([None])` is `[]`, because a `None`
element is indistinguishable from the drop sentinel
(`if sanitized_item is not None` at session_store.py line 135); likewise a
`none`-valued mapping entry is dropped (line 179). -/
theorem sanitize_null_element_dropped :
    sanitizeValue (Value.arr [Value.null]) = Value.arr [] ∧
    Value.arr [] ≠ Value.arr [Value.null] ∧
    sanitizeValue (Value.obj [("a", Value.null)]) = Value.obj [] ∧
    Value.obj [] ≠ Value.obj [("a", Value.null)] := by
  refine ⟨rfl, by simp, rfl, by simp⟩

theorem sanitizeEntriesGo_primitives (kvs : Obj) (hnd : keysNodup kvs = true)
    (hc : ∀ kv ∈ kvs, isPrimitive kv.2 = true ∧ kv.2 ≠ Value.null ∧
      kv.1 ≠ "thinking_block" ∧ kv.1 ≠ "content_blocks") :
    ∀ acc : Obj, (∀ kv ∈ kvs, alLookup acc kv.1 = none) →
      sanitizeEntriesGo acc kvs = acc ++ kvs := by
  induction kvs with
  | nil => intro acc _; simp [sanitizeEntriesGo]
  | cons kv rest ih =>
    intro acc hacc
    obtain ⟨hp, hnn, hk1, hk2⟩ := hc kv (List.mem_cons_self kv rest)
    rw [keysNodup] at hnd
    simp only [Bool.and_eq_true, Bool.not_eq_true'] at hnd
    obtain ⟨hfresh, hndrest⟩ := hnd
    rcases kv with ⟨k, v⟩
    simp only [] at hp hnn hk1 hk2
    have hsv : sanitizeValue v = v := sanitizeValue_primitive v hp
    have hupsert : alUpsert acc k v = acc ++ [(k, v)] :=
      alUpsert_of_lookup_none acc k v (hacc (k, v) (List.mem_cons_self _ rest))
    have hrest : sanitizeEntriesGo (alUpsert acc k v) rest = acc ++ (k, v) :: rest := by
      rw [hupsert]
      have := ih hndrest (fun kv' hm => (hc kv' (List.mem_cons_of_mem _ hm)))
        (acc ++ [(k, v)]) ?_
      · rw [this, List.append_assoc]; rfl
      · intro kv' hm
        rw [alLookup_append, hacc kv' (List.mem_cons_of_mem _ hm)]
        have hne : kv'.1 ≠ k := by
          intro he
          have : rest.any (fun kv0 => kv0.1 == k) = true :=
            List.any_eq_true.mpr ⟨kv', hm, by simp [he]⟩
          rw [this] at hfresh; exact absurd hfresh (by simp)
        simp [alLookup, Ne.symm hne]
    rw [sanitizeEntriesGo, if_neg hk1, if_neg hk2]
    simp only [hsv]
    cases v with
    | null => exact absurd rfl hnn
    | bool b => exact hrest
    | num n => exact hrest
    | str s => exact hrest
    | arr xs => exact hrest
    | obj o => exact hrest
    | raw t => exact hrest

theorem sanitizeList_primitives (xs : List Value)
    (h : ∀ x ∈ xs, isPrimitive x = true ∧ x ≠ Value.null) :
    sanitizeList xs = xs := by
  induction xs with
  | nil => rfl
  | cons x rest ih =>
    obtain ⟨hp, hnn⟩ := h x (List.mem_cons_self x rest)
    have hsv : sanitizeValue x = x := sanitizeValue_primitive x hp
    have hrest := ih fun x' hm => h x' (List.mem_cons_of_mem _ hm)
    rw [sanitizeList]
    simp only [hsv]
    cases x with
    | null => exact absurd rfl hnn
    | bool b => rw [if_neg (by simp [isNull]), hrest]
    | num n => rw [if_neg (by simp [isNull]), hrest]
    | str s => rw [if_neg (by simp [isNull]), hrest]
    | arr ys => simp [isPrimitive] at hp
    | obj o => simp [isPrimitive] at hp
    | raw t => simp [isPrimitive] at hp

theorem sanitizeList_eq_filter_map (xs : List Value) :
    sanitizeList xs = (xs.map sanitizeValue).filter fun v => !isNull v := by
  induction xs with
  | nil => rfl
  | cons x rest ih =>
    rw [sanitizeList]
    by_cases h : isNull (sanitizeValue x) = true
    · simp only [h, if_true, List.map_cons, List.filter_cons, h, Bool.not_true]
      simpa using ih
    · rw [Bool.not_eq_true] at h
      simp only [h, Bool.false_eq_true, if_false, List.map_cons, List.filter_cons, h,
        Bool.not_false, if_true, ih]

/-- C8 (amended): booleans, numbers and strings pass through the sanitizer
unchanged, also as sequence elements and as mapping entries; `none` passes
through unchanged only as a standalone value — a `none` sequence element or a
`none`-valued mapping entry is dropped, because `none` is the sanitizer's own
drop sentinel. Sequences are sanitized element-wise and exactly the elements
that sanitize to `none` are dropped (session_store.py lines 112-182). -/
theorem sanitize_primitives_amended :
    (∀ v, isPrimitive v = true → sanitizeValue v = v) ∧
    (∀ xs, (∀ x ∈ xs, isPrimitive x = true ∧ x ≠ Value.null) →
      sanitizeValue (Value.arr xs) = Value.arr xs) ∧
    (∀ xs, sanitizeValue (Value.arr (Value.null :: xs)) = sanitizeValue (Value.arr xs)) ∧
    (∀ xs, sanitizeValue (Value.arr xs)
      = Value.arr ((xs.map sanitizeValue).filter fun v => !isNull v)) ∧
    (∀ kvs, keysNodup kvs = true →
      (∀ kv ∈ kvs, isPrimitive kv.2 = true ∧ kv.2 ≠ Value.null ∧
        kv.1 ≠ "thinking_block" ∧ kv.1 ≠ "content_blocks") →
      sanitizeValue (Value.obj kvs) = Value.obj kvs) := by
  refine ⟨sanitizeValue_primitive, ?_, ?_, ?_, ?_⟩
  · intro xs h
    rw [sanitizeValue, sanitizeList_primitives xs h]
  · intro xs
    rw [sanitizeValue, sanitizeValue, sanitizeList]
    rfl
  · intro xs
    rw [sanitizeValue, sanitizeList_eq_filter_map]
  · intro kvs hnd hc
    rw [sanitizeValue, sanitizeEntriesGo_primitives kvs hnd hc [] (by intro kv _; rfl)]
    rfl

/-- Witness for C8 (amended): concrete non-null primitives survive unchanged
inside a sequence and a mapping. -/
theorem sanitize_primitives_amended_witness :
    sanitizeValue (Value.arr [Value.bool true, Value.num 3, Value.str "x"])
      = Value.arr [Value.bool true, Value.num 3, Value.str "x"] ∧
    sanitizeValue (Value.obj [("a", Value.num 1), ("role", Value.str "user")])
      = Value.obj [("a", Value.num 1), ("role", Value.str "user")] :=
  ⟨sanitize_primitives_amended.2.1 _ (by simp [isPrimitive]),
   sanitize_primitives_amended.2.2.2.2 _ (by decide) (by simp [isPrimitive])⟩

theorem sanitizeValue_eq_str_inv (v : Value) (r : String)
    (h : sanitizeValue v = Value.str r) : v = Value.str r := by
  cases v with
  | str s => exact h
  | null => exact absurd h (by rw [sanitizeValue]; intro he; cases he)
  | bool b => exact absurd h (by rw [sanitizeValue]; intro he; cases he)
  | num n => exact absurd h (by rw [sanitizeValue]; intro he; cases he)
  | arr xs => exact absurd h (by rw [sanitizeValue]; intro he; cases he)
  | obj o => exact absurd h (by rw [sanitizeValue]; intro he; cases he)
  | raw t => exact absurd h (by rw [sanitizeValue]; intro he; cases he)

theorem alLookup_eq_none_of_any_false {α : Type} (d : List (String × α)) (k : String)
    (h : (d.any fun kv => kv.1 == k) = false) : alLookup d k = none := by
  induction d with
  | nil => rfl
  | cons kv rest ih =>
    simp only [List.any_cons, Bool.or_eq_false_iff] at h
    rw [alLookup, if_neg (by simpa using h.1)]
    exact ih h.2

theorem alLookup_thinkingText_role (acc : Obj) (v : Value) :
    alLookup (thinkingText acc v) "role" = alLookup acc "role" := by
  cases v with
  | obj d =>
    rw [thinkingText]
    cases alLookup d "text" with
    | some t => exact alLookup_upsert_ne _ _ _ _ (by decide)
    | none => rfl
  | null => rfl
  | bool b => rfl
  | num n => rfl
  | str s => rfl
  | arr xs => rfl
  | raw t => rfl

theorem lookup_sanitizeEntriesGo_role (kvs : Obj) (hnd : keysNodup kvs = true) :
    ∀ acc : Obj, alLookup (sanitizeEntriesGo acc kvs) "role" =
      match alLookup kvs "role" with
      | none => alLookup acc "role"
      | some v =>
        if isNull (sanitizeValue v) then alLookup acc "role"
        else some (sanitizeValue v) := by
  induction kvs with
  | nil => intro acc; rfl
  | cons kv rest ih =>
    intro acc
    rw [keysNodup] at hnd
    simp only [Bool.and_eq_true, Bool.not_eq_true'] at hnd
    obtain ⟨hfresh, hndrest⟩ := hnd
    rcases kv with ⟨k, v⟩
    by_cases hk1 : k = "thinking_block"
    · rw [sanitizeEntriesGo, if_pos hk1, ih hndrest, alLookup,
        if_neg (by rw [hk1]; decide)]
      cases alLookup rest "role" with
      | none => simp [alLookup_thinkingText_role]
      | some v' =>
        by_cases hni : isNull (sanitizeValue v') = true
        · simp [hni, alLookup_thinkingText_role]
        · simp only [Bool.not_eq_true] at hni
          simp [hni]
    · by_cases hk2 : k = "content_blocks"
      · rw [sanitizeEntriesGo, if_neg hk1, if_pos hk2, ih hndrest, alLookup,
          if_neg (by rw [hk2]; decide)]
      · rw [sanitizeEntriesGo, if_neg hk1, if_neg hk2]
        by_cases hkr : k = "role"
        · have hnone : alLookup rest "role" = none := by
            refine alLookup_eq_none_of_any_false rest "role" ?_
            rw [← hkr]; exact hfresh
          by_cases hni : isNull (sanitizeValue v) = true
          · rw [if_pos hni, ih hndrest acc, hnone, alLookup, if_pos hkr]
            simp [hni]
          · rw [Bool.not_eq_true] at hni
            rw [if_neg (by simp [hni]), ih hndrest, hnone, alLookup, if_pos hkr]
            simp [hni, hkr, alLookup_upsert_self]
        · rw [alLookup, if_neg hkr]
          by_cases hni : isNull (sanitizeValue v) = true
          · rw [if_pos hni, ih hndrest acc]
          · rw [Bool.not_eq_true] at hni
            rw [if_neg (by simp [hni]), ih hndrest]
            cases alLookup rest "role" with
            | none => simp [alLookup_upsert_ne _ _ _ _ hkr]
            | some v' =>
              by_cases hni' : isNull (sanitizeValue v') = true
              · simp [hni', alLookup_upsert_ne _ _ _ _ hkr]
              · simp only [Bool.not_eq_true] at hni'
                simp [hni']

theorem roleOf_sanitizeMessage_not_internal (m : Value)
    (hnd : ∀ kvs, m = Value.obj kvs → keysNodup kvs = true)
    (hrole : isInternalRole m = false) :
    roleOf (sanitizeMessage m) ≠ some "system" ∧
    roleOf (sanitizeMessage m) ≠ some "developer" := by
  rw [isInternalRole, Bool.or_eq_false_iff] at hrole
  obtain ⟨hs, hd⟩ := hrole
  rw [beq_eq_false_iff_ne] at hs hd
  cases m with
  | obj kvs =>
    rw [sanitizeMessage, roleOf, lookup_sanitizeEntriesGo_role kvs (hnd kvs rfl) []]
    cases hlk : alLookup kvs "role" with
    | none => simp [alLookup]
    | some v =>
      by_cases hni : isNull (sanitizeValue v) = true
      · simp [hni, alLookup]
      · rw [Bool.not_eq_true] at hni
        simp only [hni, Bool.false_eq_true, if_false]
        cases hv : sanitizeValue v with
        | str r =>
          have hvs : v = Value.str r := sanitizeValue_eq_str_inv v r hv
          rw [hvs] at hlk
          rw [roleOf, hlk] at hs hd
          constructor
          · intro he
            have : r = "system" := by cases he; rfl
            exact hs (by rw [this])
          · intro he
            have : r = "developer" := by cases he; rfl
            exact hd (by rw [this])
        | null => simp
        | bool b => simp
        | num n => simp
        | arr xs => simp
        | obj o => simp
        | raw t => simp
  | null =>
    exact ⟨by simp [sanitizeMessage, roleOf, sanitizeValue, isNull, alLookup],
           by simp [sanitizeMessage, roleOf, sanitizeValue, isNull, alLookup]⟩
  | bool b =>
    exact ⟨by simp [sanitizeMessage, roleOf, sanitizeValue, isNull, alLookup],
           by simp [sanitizeMessage, roleOf, sanitizeValue, isNull, alLookup]⟩
  | num n =>
    exact ⟨by simp [sanitizeMessage, roleOf, sanitizeValue, isNull, alLookup],
           by simp [sanitizeMessage, roleOf, sanitizeValue, isNull, alLookup]⟩
  | str s =>
    exact ⟨by simp [sanitizeMessage, roleOf, sanitizeValue, isNull, alLookup],
           by simp [sanitizeMessage, roleOf, sanitizeValue, isNull, alLookup]⟩
  | arr xs =>
    exact ⟨by simp [sanitizeMessage, roleOf, sanitizeValue, isNull, alLookup],
           by simp [sanitizeMessage, roleOf, sanitizeValue, isNull, alLookup]⟩
  | raw t =>
    exact ⟨by simp [sanitizeMessage, roleOf, sanitizeValue, isNull, alLookup],
           by simp [sanitizeMessage, roleOf, sanitizeValue, isNull, alLookup]⟩

theorem persistTranscript_eq_filter_map (ts : List Value) :
    persistTranscript ts = (ts.filter fun m => !isInternalRole m).map sanitizeMessage := by
  induction ts with
  | nil => rfl
  | cons m rest ih =>
    rw [persistTranscript] at *
    by_cases h : isInternalRole m = true
    · simp [List.filterMap_cons, List.filter_cons, h, ih]
    · rw [Bool.not_eq_true] at h
      simp [List.filterMap_cons, List.filter_cons, h, ih]

/-- Counterexample to C6 as stated: a user message containing a `none`-valued
field does not survive the save/load round trip unchanged — the loaded
transcript holds the sanitized message (the `x` entry dropped by
`_sanitize_message`), not the original one, so the round trip does not yield
"exactly the user and assistant messages". -/
theorem transcript_roundtrip_counterexample :
    (storeSave ⟨[]⟩ "s1" [Value.obj [("role", Value.str "user"), ("x", Value.null)]]
        (Value.obj []) 0).2 = none ∧
    storeLoad (storeSave ⟨[]⟩ "s1"
        [Value.obj [("role", Value.str "user"), ("x", Value.null)]]
        (Value.obj []) 0).1 "s1" "2025-01-01T00:00:00"
      = Except.ok ([Value.obj [("role", Value.str "user")]], Value.obj []) ∧
    Value.obj [("role", Value.str "user")]
      ≠ Value.obj [("role", Value.str "user"), ("x", Value.null)] :=
  ⟨rfl, rfl, by simp⟩

/-- C6 (amended): saving a transcript and loading it back yields exactly the
sanitized forms of its non-internal-role messages, in their original relative
order — the messages themselves whenever they are fixed points of the
sanitizer — and `system`/`developer` role messages are never written to the
persisted transcript: no persisted line carries an internal role
(session_store.py lines 184-216, 274-315). -/
theorem transcript_roundtrip_sanitized (st : Store) (sid now : String)
    (ts : List Value) (metadata : Value) (mt : Int)
    (hvalid : checkSessionId sid = none)
    (hnd : ∀ m ∈ ts, msgWF m = true) :
    (storeSave st sid ts metadata mt).2 = none ∧
    storeLoad (storeSave st sid ts metadata mt).1 sid now
      = Except.ok ((ts.filter fun m => !isInternalRole m).map sanitizeMessage, metadata) ∧
    (∀ d, alLookup (storeSave st sid ts metadata mt).1.dirs sid = some d →
      d.transcript = some (TranscriptFile.ok (persistTranscript ts)) ∧
      ∀ lines, d.transcript = some (TranscriptFile.ok lines) →
        ∀ l ∈ lines, roleOf l ≠ some "system" ∧ roleOf l ≠ some "developer") := by
  simp only [storeSave, hvalid]
  have hlines : ∀ l ∈ persistTranscript ts,
      roleOf l ≠ some "system" ∧ roleOf l ≠ some "developer" := by
    intro l hl
    rw [persistTranscript_eq_filter_map] at hl
    obtain ⟨m, hmf, hml⟩ := List.mem_map.mp hl
    obtain ⟨hmts, hmint⟩ := List.mem_filter.mp hmf
    rw [← hml]
    refine roleOf_sanitizeMessage_not_internal m ?_ (by simpa using hmint)
    intro kvs he
    have hw := hnd m hmts
    rw [he] at hw
    exact hw
  refine ⟨by trivial, ?_, ?_⟩
  · rw [storeLoad, hvalid, alLookup_upsert_self]
    rw [saveMetadataDir, saveTranscriptDir]
    cases hd0 : (match alLookup st.dirs sid with
        | some d => d
        | none => emptyDir mt).transcript with
    | some t =>
      simp only [hd0]
      rw [loadTranscriptDir, loadMetadataDir]
      cases (match alLookup st.dirs sid with
          | some d => d
          | none => emptyDir mt).metadata with
      | some m0 => simp [persistTranscript_eq_filter_map]
      | none => simp [persistTranscript_eq_filter_map]
    | none =>
      simp only [hd0]
      rw [loadTranscriptDir, loadMetadataDir]
      cases (match alLookup st.dirs sid with
          | some d => d
          | none => emptyDir mt).metadata with
      | some m0 => simp [persistTranscript_eq_filter_map]
      | none => simp [persistTranscript_eq_filter_map]
  · intro d hd
    rw [alLookup_upsert_self] at hd
    cases hd
    rw [saveMetadataDir, saveTranscriptDir]
    cases (match alLookup st.dirs sid with
        | some d => d
        | none => emptyDir mt).transcript with
    | some t =>
      cases (match alLookup st.dirs sid with
          | some d => d
          | none => emptyDir mt).metadata with
      | some m0 =>
        refine ⟨rfl, ?_⟩
        intro lines hl l hml
        cases hl
        exact hlines l hml
      | none =>
        refine ⟨rfl, ?_⟩
        intro lines hl l hml
        cases hl
        exact hlines l hml
    | none =>
      cases (match alLookup st.dirs sid with
          | some d => d
          | none => emptyDir mt).metadata with
      | some m0 =>
        refine ⟨rfl, ?_⟩
        intro lines hl l hml
        cases hl
        exact hlines l hml
      | none =>
        refine ⟨rfl, ?_⟩
        intro lines hl l hml
        cases hl
        exact hlines l hml

/-- Witness for C6 (amended): a four-role transcript round-trips to exactly
its `user` and `assistant` messages (here already sanitized, hence returned
verbatim), in order, with the metadata intact. -/
theorem transcript_roundtrip_sanitized_witness :
    storeLoad (storeSave ⟨[]⟩ "s2"
        [Value.obj [("role", Value.str "user"), ("content", Value.str "hi")],
         Value.obj [("role", Value.str "assistant"), ("content", Value.str "yo")],
         Value.obj [("role", Value.str "system"), ("content", Value.str "sys")],
         Value.obj [("role", Value.str "developer"), ("content", Value.str "ctx")]]
        (Value.obj [("profile", Value.str "p")]) 1).1 "s2" "2025-01-01T00:00:00"
      = Except.ok
        ([Value.obj [("role", Value.str "user"), ("content", Value.str "hi")],
          Value.obj [("role", Value.str "assistant"), ("content", Value.str "yo")]],
         Value.obj [("profile", Value.str "p")]) :=
  (transcript_roundtrip_sanitized ⟨[]⟩ "s2" "2025-01-01T00:00:00"
    [Value.obj [("role", Value.str "user"), ("content", Value.str "hi")],
     Value.obj [("role", Value.str "assistant"), ("content", Value.str "yo")],
     Value.obj [("role", Value.str "system"), ("content", Value.str "sys")],
     Value.obj [("role", Value.str "developer"), ("content", Value.str "ctx")]]
    (Value.obj [("profile", Value.str "p")]) 1 (by decide) (by decide)).2.1

theorem alLookup_upsert {α : Type} (d : List (String × α)) (k v k') :
    alLookup (alUpsert d k v) k' = if k = k' then some v else alLookup d k' := by
  by_cases h : k = k'
  · rw [if_pos h, ← h, alLookup_upsert_self]
  · rw [if_neg h, alLookup_upsert_ne _ _ _ _ h]

theorem hasKey_mergeEntries (o : Obj) :
    ∀ p k, alHasKey (mergeEntries p o) k = (alHasKey p k || alHasKey o k) := by
  induction o with
  | nil =>
    intro p k
    rw [mergeEntries]
    simp [alHasKey, alLookup]
  | cons kv rest ih =>
    intro p k
    rcases kv with ⟨k1, v1⟩
    rw [mergeEntries]
    cases hl : alLookup p k1 with
    | some pv =>
      rw [ih]
      by_cases hk : k1 = k
      · subst hk
        simp [alHasKey, alLookup_upsert_self, alLookup, hl]
      · have hne : ¬(k1 = k) := hk
        simp [alHasKey, alLookup_upsert_ne _ _ _ _ fun e => hk e, alLookup, hne]
    | none =>
      rw [ih]
      by_cases hk : k1 = k
      · subst hk
        simp [alHasKey, alLookup_append, hl, alLookup]
      · simp only [alHasKey, alLookup_append, alLookup, hk, if_neg hk]
        cases alLookup p k <;> simp

theorem alLookup_mergeTopStep_self (p : Obj) (k : String) (v : Value) :
    alLookup (mergeTopStep p k v) k = some (combineTop k (alLookup p k) v) := by
  rw [mergeTopStep]
  cases hl : alLookup p k with
  | some pv =>
    simp only [hl]
    by_cases hms : moduleSections.contains k = true
    · have hmem : k ∈ moduleSections := by simpa using hms
      rw [if_pos hms]
      cases pv <;> cases v <;> simp [alLookup_upsert_self, combineTop, hmem]
    · have hmem : k ∉ moduleSections := by simpa using hms
      rw [if_neg hms]
      simp [alLookup_upsert_self, combineTop, hmem]
  | none =>
    simp only [hl]
    rw [alLookup_append, hl]
    simp [alLookup, combineTop]

theorem lookup_mergeTop (o : Obj) (hnd : keysNodup o = true) (k : String) :
    ∀ p, alLookup (mergeTop p o) k =
      match alLookup o k with
      | none => alLookup p k
      | some v => some (combineTop k (alLookup p k) v) := by
  induction o with
  | nil => intro p; rfl
  | cons kv rest ih =>
    intro p
    rw [keysNodup] at hnd
    simp only [Bool.and_eq_true, Bool.not_eq_true'] at hnd
    obtain ⟨hfresh, hndrest⟩ := hnd
    rcases kv with ⟨k1, v1⟩
    rw [mergeTop, ih hndrest]
    by_cases hk : k1 = k
    · subst hk
      rw [alLookup_eq_none_of_any_false rest k1 hfresh]
      rw [alLookup_mergeTopStep_self]
      simp [alLookup]
    · rw [alLookup_mergeTopStep_ne _ _ _ _ hk]
      have hcons : alLookup ((k1, v1) :: rest) k = alLookup rest k := by
        rw [alLookup, if_neg hk]
      rw [hcons]

theorem provOfSetters_snoc (ls : List String) (l : String) :
    provOfSetters (ls ++ [l]) =
      some (match provOfSetters ls with
            | none => Prov.one l
            | some pv => Prov.two l (Prov.one pv.first)) := by
  rw [provOfSetters, provOfSetters, List.reverse_append]
  cases hr : ls.reverse with
  | nil => rfl
  | cons a rest =>
    cases rest with
    | nil => rfl
    | cons b rest' => rfl

theorem sessionSetters_snoc (chain : List (Obj × String)) (p : Obj) (n : String)
    (f : String) :
    sessionSetters (chain ++ [(p, n)]) f =
      sessionSetters chain f ++
        (if alHasKey (sessionFieldsOf p) f then [n] else []) := by
  rw [sessionSetters, sessionSetters, List.filter_append, List.map_append]
  by_cases h : alHasKey (sessionFieldsOf p) f
  · simp [h]
  · simp [h]

theorem lookup_recordSession_fold (msf : Obj) (name : String) :
    ∀ (sess : Obj), keysNodup sess = true → ∀ (src : List (String × Prov)) (f : String),
      alLookup
        (sess.foldl
          (fun acc kv =>
            if alHasKey msf kv.1 then
              alUpsert acc kv.1
                (Prov.two name (Prov.one (((alLookup acc kv.1).getD (Prov.one "")).first)))
            else alUpsert acc kv.1 (Prov.one name))
          src) f =
      if alHasKey sess f then
        some (if alHasKey msf f then
          Prov.two name (Prov.one (((alLookup src f).getD (Prov.one "")).first))
        else Prov.one name)
      else alLookup src f := by
  intro sess
  induction sess with
  | nil =>
    intro _ src f
    simp [alHasKey, alLookup]
  | cons kv rest ih =>
    intro hnd src f
    rw [keysNodup] at hnd
    simp only [Bool.and_eq_true, Bool.not_eq_true'] at hnd
    obtain ⟨hfresh, hndrest⟩ := hnd
    rcases kv with ⟨k, v⟩
    rw [List.foldl_cons, ih hndrest]
    by_cases hkf : k = f
    · subst hkf
      have hnone : alHasKey rest k = false := by
        rw [alHasKey, alLookup_eq_none_of_any_false rest k hfresh]; rfl
      have hhead : alHasKey ((k, v) :: rest) k = true := by
        simp [alHasKey, alLookup]
      by_cases hm : alHasKey msf k = true
      · simp [hnone, hhead, hm, alLookup_upsert_self]
      · rw [Bool.not_eq_true] at hm
        simp [hnone, hhead, hm, alLookup_upsert_self]
    · have hcons : alHasKey ((k, v) :: rest) f = alHasKey rest f := by
        simp [alHasKey, alLookup, hkf]
      have hup : ∀ w, alLookup (alUpsert src k w) f = alLookup src f :=
        fun w => alLookup_upsert_ne _ _ _ _ hkf
      by_cases hm : alHasKey msf k = true
      · by_cases hrf : alHasKey rest f = true
        · simp [hcons, hm, hrf, hup]
        · rw [Bool.not_eq_true] at hrf
          simp [hcons, hm, hrf, hup]
      · rw [Bool.not_eq_true] at hm
        by_cases hrf : alHasKey rest f = true
        · simp [hcons, hm, hrf, hup]
        · rw [Bool.not_eq_true] at hrf
          simp [hcons, hm, hrf, hup]

theorem lookup_recordSession (name : String) (p merged : Obj)
    (hwf : wfSession p = true) (src : List (String × Prov)) (f : String) :
    alLookup (recordSession name p merged src) f =
      if alHasKey (sessionFieldsOf p) f then
        some (if alHasKey (sessionFieldsOf merged) f then
          Prov.two name (Prov.one (((alLookup src f).getD (Prov.one "")).first))
        else Prov.one name)
      else alLookup src f := by
  rw [wfSession] at hwf
  simp only [Bool.and_eq_true] at hwf
  obtain ⟨hndp, hsess⟩ := hwf
  rw [recordSession]
  cases hl : alLookup p "session" with
  | none =>
    simp only [hl]
    have hsf : sessionFieldsOf p = [] := by rw [sessionFieldsOf, hl]
    rw [hsf]
    simp [alHasKey, alLookup]
  | some v =>
    rw [hl] at hsess
    cases v with
    | obj sess =>
      simp only [hl]
      have hsf : sessionFieldsOf p = sess := by rw [sessionFieldsOf, hl]
      rw [hsf]
      exact lookup_recordSession_fold (sessionFieldsOf merged) name sess hsess src f
    | null => exact absurd hsess (by simp)
    | bool b => exact absurd hsess (by simp)
    | num n => exact absurd hsess (by simp)
    | str s => exact absurd hsess (by simp)
    | arr xs => exact absurd hsess (by simp)
    | raw t => exact absurd hsess (by simp)

theorem updSection_session (s : Sources) (c : String)
    (g : List (String × Prov) → List (String × Prov)) :
    (Sources.updSection s c g).session = s.session := by
  rw [Sources.updSection]
  split_ifs <;> rfl

theorem recordModuleNew_session (name c : String) (s : Sources) (mid : String) :
    (recordModuleNew name c s mid).session = s.session := by
  simp only [recordModuleNew]
  rw [updSection_session]

theorem recordModuleExisting_session (name c : String) (s : Sources)
    (ikvs : Obj) (mid : String) (em : Value) :
    (recordModuleExisting name c s ikvs mid em).session = s.session := by
  simp only [recordModuleExisting]
  repeat' split
  all_goals simp [updSection_session]

theorem recordModuleId_session (name c : String) (merged : Obj) (s : Sources)
    (ikvs : Obj) (mid : String) :
    (recordModuleId name c merged s ikvs mid).session = s.session := by
  simp only [recordModuleId]
  split
  · exact recordModuleNew_session name c s mid
  · exact recordModuleExisting_session name c s ikvs mid _

theorem recordModuleItem_session (name c : String) (merged : Obj) (s : Sources)
    (item : Value) : (recordModuleItem name c merged s item).session = s.session := by
  simp only [recordModuleItem]
  repeat' split
  all_goals first
    | rfl
    | apply recordModuleId_session

theorem recordSection_session (name c : String) (profile merged : Obj) :
    ∀ s : Sources, (recordSection name c profile merged s).session = s.session := by
  suffices h : ∀ (items : List Value) (s : Sources),
      (items.foldl (recordModuleItem name c merged) s).session = s.session by
    intro s
    rw [recordSection]
    exact h _ s
  intro items
  induction items with
  | nil => intro s; rfl
  | cons it rest ih =>
    intro s
    rw [List.foldl_cons, ih, recordModuleItem_session]

theorem recordAgents_session (name : String) (profile merged : Obj) (s : Sources) :
    (recordAgents name profile merged s).session = s.session := by
  rw [recordAgents]
  split_ifs <;> rfl

theorem processMember_sources_session (st : BuildState) (p : Obj) (n : String) :
    (processMember st p n).sources.session
      = recordSession n p st.merged st.sources.session := by
  simp only [processMember]
  rw [recordAgents_session, recordSection_session, recordSection_session,
    recordSection_session]

theorem wfSession_parts (p : Obj) (h : wfSession p = true) :
    keysNodup p = true ∧
    ∀ v, alLookup p "session" = some v → ∃ s0, v = Value.obj s0 := by
  rw [wfSession] at h
  simp only [Bool.and_eq_true] at h
  refine ⟨h.1, ?_⟩
  intro v hv
  have h2 := h.2
  rw [hv] at h2
  cases v with
  | obj s0 => exact ⟨s0, rfl⟩
  | null => exact absurd h2 (by simp)
  | bool b => exact absurd h2 (by simp)
  | num n => exact absurd h2 (by simp)
  | str s => exact absurd h2 (by simp)
  | arr xs => exact absurd h2 (by simp)
  | raw t => exact absurd h2 (by simp)

theorem provOfSetters_eq_none_iff (ls : List String) :
    provOfSetters ls = none ↔ ls = [] := by
  constructor
  · intro h
    rw [provOfSetters] at h
    cases hr : ls.reverse with
    | nil => simpa using congrArg List.reverse hr
    | cons a rest =>
      rw [hr] at h
      cases rest with
      | nil => exact absurd h (by simp)
      | cons b rest' => exact absurd h (by simp)
  · intro h
    rw [h]
    rfl

theorem sessionFields_merge (merged p : Obj) (hwf : wfSession p = true)
    (hmobj : ∀ v, alLookup merged "session" = some v → ∃ s0, v = Value.obj s0) :
    (∀ f, alHasKey (sessionFieldsOf (merge_profile_dicts merged p)) f
        = (alHasKey (sessionFieldsOf merged) f || alHasKey (sessionFieldsOf p) f)) ∧
    (∀ v, alLookup (merge_profile_dicts merged p) "session" = some v →
      ∃ s0, v = Value.obj s0) := by
  obtain ⟨hnd, hobj⟩ := wfSession_parts p hwf
  have hlk := lookup_mergeTop p hnd "session" merged
  rw [merge_profile_dicts]
  cases hp : alLookup p "session" with
  | none =>
    rw [hp] at hlk
    have hsame : sessionFieldsOf (mergeTop merged p) = sessionFieldsOf merged := by
      rw [sessionFieldsOf, sessionFieldsOf, hlk]
    have hsfp : sessionFieldsOf p = [] := by rw [sessionFieldsOf, hp]
    constructor
    · intro f
      rw [hsame, hsfp]
      simp [alHasKey, alLookup]
    · intro v hv
      rw [hlk] at hv
      exact hmobj v hv
  | some vp =>
    obtain ⟨sp, rfl⟩ := hobj vp hp
    rw [hp] at hlk
    have hlk2 : alLookup (mergeTop merged p) "session"
        = some (combineTop "session" (alLookup merged "session") (Value.obj sp)) := hlk
    have hsfp : sessionFieldsOf p = sp := by rw [sessionFieldsOf, hp]
    cases hm : alLookup merged "session" with
    | none =>
      rw [hm] at hlk2
      have hval : combineTop "session" none (Value.obj sp) = Value.obj sp := rfl
      rw [hval] at hlk2
      have hsfm : sessionFieldsOf merged = [] := by rw [sessionFieldsOf, hm]
      have hsame : sessionFieldsOf (mergeTop merged p) = sp := by
        rw [sessionFieldsOf, hlk2]
      constructor
      · intro f
        rw [hsame, hsfp, hsfm]
        simp [alHasKey, alLookup]
      · intro v hv
        rw [hlk2] at hv
        cases hv
        exact ⟨sp, rfl⟩
    | some vm =>
      obtain ⟨ms, rfl⟩ := hmobj vm hm
      rw [hm] at hlk2
      have hval : combineTop "session" (some (Value.obj ms)) (Value.obj sp)
          = Value.obj (mergeEntries ms sp) := rfl
      rw [hval] at hlk2
      have hsfm : sessionFieldsOf merged = ms := by rw [sessionFieldsOf, hm]
      have hsame : sessionFieldsOf (mergeTop merged p) = mergeEntries ms sp := by
        rw [sessionFieldsOf, hlk2]
      constructor
      · intro f
        rw [hsame, hsfp, hsfm, hasKey_mergeEntries]
      · intro v hv
        rw [hlk2] at hv
        cases hv
        exact ⟨mergeEntries ms sp, rfl⟩

theorem processMember_merged (st : BuildState) (p : Obj) (n : String) :
    (processMember st p n).merged = merge_profile_dicts st.merged p := rfl

theorem processMember_sessionInv (chain : List (Obj × String)) (st : BuildState)
    (p : Obj) (n : String) (hwf : wfSession p = true) (hinv : SessionInv chain st) :
    SessionInv (chain ++ [(p, n)]) (processMember st p n) := by
  obtain ⟨hsrc, hkeys, hobj⟩ := hinv
  have hmerge := sessionFields_merge st.merged p hwf hobj
  refine ⟨?_, ?_, ?_⟩
  · intro f
    rw [processMember_sources_session,
      lookup_recordSession n p st.merged hwf st.sources.session f,
      sessionSetters_snoc]
    by_cases hpf : alHasKey (sessionFieldsOf p) f = true
    · rw [if_pos hpf, if_pos hpf, provOfSetters_snoc]
      by_cases hmf : alHasKey (sessionFieldsOf st.merged) f = true
      · rw [if_pos hmf]
        have hne : sessionSetters chain f ≠ [] := (hkeys f).mp hmf
        cases hpv : provOfSetters (sessionSetters chain f) with
        | none => exact absurd ((provOfSetters_eq_none_iff _).mp hpv) hne
        | some pv =>
          rw [hsrc f, hpv]
          rfl
      · rw [Bool.not_eq_true] at hmf
        rw [hmf]
        simp only [Bool.false_eq_true, if_false]
        have hemp : sessionSetters chain f = [] := by
          by_contra hne
          have := (hkeys f).mpr hne
          rw [this] at hmf
          cases hmf
        rw [hemp]
        rfl
    · rw [Bool.not_eq_true] at hpf
      rw [hpf]
      simp only [Bool.false_eq_true, if_false, List.append_nil]
      exact hsrc f
  · intro f
    rw [processMember_merged, hmerge.1 f, sessionSetters_snoc]
    by_cases hpf : alHasKey (sessionFieldsOf p) f = true
    · rw [if_pos hpf]
      simp [hpf]
    · rw [Bool.not_eq_true] at hpf
      rw [hpf]
      simp only [Bool.false_eq_true, if_false, List.append_nil, Bool.or_false]
      exact hkeys f
  · intro v hv
    rw [processMember_merged] at hv
    exact hmerge.2 v hv

theorem build_sessionInv (chain : List (Obj × String))
    (hwf : ∀ m ∈ chain, wfSession m.1 = true) :
    ∀ (st : BuildState) (processed : List (Obj × String)), SessionInv processed st →
      SessionInv (processed ++ chain)
        (chain.foldl (fun s pn => processMember s pn.1 pn.2) st) := by
  induction chain with
  | nil =>
    intro st processed h
    simpa using h
  | cons m rest ih =>
    intro st processed h
    have h1 := processMember_sessionInv processed st m.1 m.2
      (hwf m (List.mem_cons_self m rest)) h
    have h2 := ih (fun m' hm' => hwf m' (List.mem_cons_of_mem _ hm'))
      (processMember st m.1 m.2) (processed ++ [(m.1, m.2)]) h1
    rw [List.foldl_cons]
    have heq : processed ++ [(m.1, m.2)] ++ rest = processed ++ m :: rest := by
      simp
    rw [heq] at h2
    exact h2

/-- C2: for every chain and every session field, the recorded provenance is:
nothing when no chain member sets the field, the single setter's label when
exactly one member's `session` dict contains it, and the pair
`(label of the last setter, label of the setter immediately before)` when two
or more set it — override chains always collapse to
`(most-recent, one-level-back)`, never a longer history (profile.py lines
139-155; the running merge feeding the new-vs-override test is spec-modelled
from §4.1). The Python tuple `(a, b)` is `Prov.two a (Prov.one b)`. -/
theorem build_sources_session_provenance (chainDicts : List Obj)
    (chainNames : List String) (hwf : ∀ p ∈ chainDicts, wfSession p = true)
    (f : String) :
    alLookup (build_effective_config_with_sources chainDicts chainNames).2.session f
      = provOfSetters (sessionSetters (chainDicts.zip chainNames) f) := by
  have hwfz : ∀ m ∈ chainDicts.zip chainNames, wfSession m.1 = true :=
    fun m hm => hwf m.1 (List.of_mem_zip hm).1
  have hbase : SessionInv [] { sources := initialSources, merged := [] } := by
    refine ⟨?_, ?_, ?_⟩
    · intro f0; rfl
    · intro f0
      constructor
      · intro h; cases h
      · intro h; exact absurd rfl h
    · intro v hv; cases hv
  have h := build_sessionInv (chainDicts.zip chainNames) hwfz
    { sources := initialSources, merged := [] } [] hbase
  rw [List.nil_append] at h
  exact h.1 f

/-- Witness for C2: the chain `[(A, "base"), (B, "mid"), (C, "top")]` where A
sets `session.orchestrator`, B does not touch it and C overrides it records
provenance `("top", "base")` for it. -/
theorem build_sources_session_provenance_witness :
    alLookup (build_effective_config_with_sources
        [[("session", Value.obj [("orchestrator", Value.str "loop")])],
         [("session", Value.obj [("context", Value.str "c")])],
         [("session", Value.obj [("orchestrator", Value.str "drive")])]]
        ["base", "mid", "top"]).2.session "orchestrator"
      = some (Prov.two "top" (Prov.one "base")) :=
  (build_sources_session_provenance
    [[("session", Value.obj [("orchestrator", Value.str "loop")])],
     [("session", Value.obj [("context", Value.str "c")])],
     [("session", Value.obj [("orchestrator", Value.str "drive")])]]
    ["base", "mid", "top"] (by decide) "orchestrator").trans (by rfl)

theorem lookup_mergeEntries (o : Obj) (hnd : keysNodup o = true) (k : String) :
    ∀ p, alLookup (mergeEntries p o) k =
      match alLookup o k with
      | none => alLookup p k
      | some v => some (match alLookup p k with
                        | none => v
                        | some pv => mergeValue pv v) := by
  induction o with
  | nil => intro p; rfl
  | cons kv rest ih =>
    intro p
    rw [keysNodup] at hnd
    simp only [Bool.and_eq_true, Bool.not_eq_true'] at hnd
    obtain ⟨hfresh, hndrest⟩ := hnd
    rcases kv with ⟨k1, v1⟩
    rw [mergeEntries]
    by_cases hk : k1 = k
    · subst hk
      have hrest : alLookup rest k1 = none :=
        alLookup_eq_none_of_any_false rest k1 hfresh
      cases hl : alLookup p k1 with
      | some pv =>
        simp only [hl]
        rw [ih hndrest, hrest, alLookup_upsert_self]
        simp [alLookup, hl]
      | none =>
        simp only [hl]
        rw [ih hndrest, hrest]
        rw [alLookup_append, hl]
        simp [alLookup, hl]
    · cases hl : alLookup p k1 with
      | some pv =>
        simp only [hl]
        rw [ih hndrest]
        have hup : alLookup (alUpsert p k1 (mergeValue pv v1)) k = alLookup p k :=
          alLookup_upsert_ne _ _ _ _ hk
        have hcons : alLookup ((k1, v1) :: rest) k = alLookup rest k := by
          rw [alLookup, if_neg hk]
        rw [hup, hcons]
      | none =>
        simp only [hl]
        rw [ih hndrest]
        have hup : alLookup (p ++ [(k1, v1)]) k = alLookup p k := by
          rw [alLookup_append]
          cases hpk : alLookup p k with
          | some w => rfl
          | none => simp [alLookup, hk]
        have hcons : alLookup ((k1, v1) :: rest) k = alLookup rest k := by
          rw [alLookup, if_neg hk]
        rw [hup, hcons]

theorem entryModuleId_mergeValue (pe oe : Value) (m : String)
    (hpe : entryModuleId pe = some m) (hoe : entryModuleId oe = some m)
    (hnd : ∀ kvs, oe = Value.obj kvs → keysNodup kvs = true) :
    entryModuleId (mergeValue pe oe) = some m := by
  cases pe with
  | obj pkvs =>
    cases oe with
    | obj okvs =>
      rw [entryModuleId] at hpe hoe
      rw [mergeValue, entryModuleId,
        lookup_mergeEntries okvs (hnd okvs rfl) "module" pkvs]
      cases hok : alLookup okvs "module" with
      | none =>
        rw [hok] at hoe
        exact absurd hoe (by simp)
      | some ov =>
        rw [hok] at hoe
        cases ov with
        | str so =>
          have hso : so = m := by simpa using hoe
          subst hso
          cases hpk : alLookup pkvs "module" with
          | none => rfl
          | some pv =>
            rw [hpk] at hpe
            cases pv with
            | str sp =>
              have hsp : sp = so := by simpa using hpe
              subst hsp
              rfl
            | null => exact absurd hpe (by simp)
            | bool b => exact absurd hpe (by simp)
            | num n => exact absurd hpe (by simp)
            | arr xs => exact absurd hpe (by simp)
            | obj o2 => exact absurd hpe (by simp)
            | raw t => exact absurd hpe (by simp)
        | null => exact absurd hoe (by simp)
        | bool b => exact absurd hoe (by simp)
        | num n => exact absurd hoe (by simp)
        | arr xs => exact absurd hoe (by simp)
        | obj o2 => exact absurd hoe (by simp)
        | raw t => exact absurd hoe (by simp)
    | null => exact absurd hoe (by simp [entryModuleId])
    | bool b => exact absurd hoe (by simp [entryModuleId])
    | num n => exact absurd hoe (by simp [entryModuleId])
    | str s => exact absurd hoe (by simp [entryModuleId])
    | arr xs => exact absurd hoe (by simp [entryModuleId])
    | raw t => exact absurd hoe (by simp [entryModuleId])
  | null => exact absurd hpe (by simp [entryModuleId])
  | bool b => exact absurd hpe (by simp [entryModuleId])
  | num n => exact absurd hpe (by simp [entryModuleId])
  | str s => exact absurd hpe (by simp [entryModuleId])
  | arr xs => exact absurd hpe (by simp [entryModuleId])
  | raw t => exact absurd hpe (by simp [entryModuleId])

theorem itemsWF_parts (items : List Value) (h : itemsWF items = true) :
    entryIdsNodup items = true ∧
    ∀ it ∈ items, ∀ kvs, it = Value.obj kvs → keysNodup kvs = true := by
  rw [itemsWF, Bool.and_eq_true] at h
  refine ⟨h.1, ?_⟩
  intro it hm kvs he
  have := List.all_eq_true.mp h.2 it hm
  rw [he] at this
  exact this

theorem entryModuleId_mergeParentEntry (os : List Value)
    (hwf : ∀ it ∈ os, ∀ kvs, it = Value.obj kvs → keysNodup kvs = true)
    (pe : Value) :
    entryModuleId (mergeParentEntry os pe) = entryModuleId pe := by
  cases hid : entryModuleId pe with
  | none =>
    have hred : mergeParentEntry os pe = pe := by rw [mergeParentEntry, hid]
    rw [hred, hid]
  | some m =>
    have hred : mergeParentEntry os pe
        = match findModule os m with
          | some oe => mergeValue pe oe
          | none => pe := by
      rw [mergeParentEntry, hid]
    rw [hred]
    cases hfm : findModule os m with
    | none => exact hid
    | some oe =>
      have hoe_mem : oe ∈ os := List.mem_of_find?_eq_some hfm
      have hoe_id : entryModuleId oe = some m := by
        have := List.find?_some hfm
        simpa using this
      exact entryModuleId_mergeValue pe oe m hid hoe_id (hwf oe hoe_mem)

theorem findModule_map_mergeParentEntry (os : List Value) (x : String)
    (hwf : ∀ it ∈ os, ∀ kvs, it = Value.obj kvs → keysNodup kvs = true) :
    ∀ ps : List Value, (findModule os x = none ∨ findModule ps x = none) →
      findModule (ps.map (mergeParentEntry os)) x = findModule ps x := by
  intro ps
  induction ps with
  | nil => intro _; rfl
  | cons pe rest ih =>
    intro hcond
    rw [List.map_cons, findModule, findModule, List.find?_cons, List.find?_cons]
    have hq : (entryModuleId (mergeParentEntry os pe) == some x)
        = (entryModuleId pe == some x) := by
      rw [entryModuleId_mergeParentEntry os hwf pe]
    cases hpe : (entryModuleId pe == some x) with
    | true =>
      rw [hq, hpe]
      simp only [cond_true]
      have hidx : entryModuleId pe = some x := by simpa using hpe
      rcases hcond with hos | hps
      · have hred : mergeParentEntry os pe
            = match findModule os x with
              | some oe => mergeValue pe oe
              | none => pe := by
          rw [mergeParentEntry, hidx]
        rw [hred, hos]
      · exfalso
        rw [findModule, List.find?_cons, hpe] at hps
        simp at hps
    | false =>
      rw [hq, hpe]
      simp only [cond_false]
      refine ih ?_
      rcases hcond with hos | hps
      · exact Or.inl hos
      · refine Or.inr ?_
        rw [findModule, List.find?_cons, hpe] at hps
        simp only [cond_false] at hps
        exact hps

theorem findModule_filter_none (ps os : List Value) (x : String)
    (hno : findModule os x = none) :
    findModule (os.filter (entryIsNew ps)) x = none := by
  rw [findModule, List.find?_eq_none]
  intro it hm
  have hmem : it ∈ os := (List.mem_filter.mp hm).1
  rw [findModule, List.find?_eq_none] at hno
  exact hno it hmem

theorem findModule_filter_hit (ps : List Value) (x : String) (eA : Value)
    (hps : findModule ps x = none) :
    ∀ os : List Value, findModule os x = some eA →
      findModule (os.filter (entryIsNew ps)) x = some eA := by
  rw [findModule, List.find?_eq_none] at hps
  intro os
  induction os with
  | nil => intro h; cases h
  | cons oe rest ih =>
    intro hhit
    rw [findModule, List.find?_cons] at hhit
    cases hq : (entryModuleId oe == some x) with
    | true =>
      rw [hq] at hhit
      simp only [cond_true] at hhit
      have heA : oe = eA := by injection hhit
      subst heA
      have hidx : entryModuleId oe = some x := by simpa using hq
      have hany : (ps.any fun pe => entryModuleId pe == some x) = false := by
        rw [List.any_eq_false]
        intro pe hm
        exact hps pe hm
      have hnew : entryIsNew ps oe = true := by
        have hred : entryIsNew ps oe
            = !(ps.any fun pe => entryModuleId pe == some x) := by
          rw [entryIsNew, hidx]
        rw [hred, hany]
        rfl
      rw [List.filter_cons, hnew]
      simp only [if_true]
      rw [findModule, List.find?_cons, hq]
    | false =>
      rw [hq] at hhit
      simp only [cond_false] at hhit
      rw [List.filter_cons]
      by_cases hnew : entryIsNew ps oe = true
      · rw [hnew]
        simp only [if_true]
        rw [findModule, List.find?_cons, hq]
        simp only [cond_false]
        exact ih hhit
      · rw [Bool.not_eq_true] at hnew
        rw [hnew]
        simp only [Bool.false_eq_true, if_false]
        exact ih hhit

theorem findModule_append (l1 l2 : List Value) (x : String) :
    findModule (l1 ++ l2) x =
      match findModule l1 x with
      | some e => some e
      | none => findModule l2 x := by
  simp only [findModule]
  induction l1 with
  | nil => rfl
  | cons a l1' ih =>
    rw [List.cons_append, List.find?_cons, List.find?_cons]
    cases hq : (entryModuleId a == some x) with
    | true => rfl
    | false =>
      simp only [cond_false]
      exact ih

theorem wfSections_parts (p : Obj) (h : wfSections p = true) :
    keysNodup p = true ∧ wfSectionOf p "providers" = true ∧
    wfSectionOf p "tools" = true ∧ wfSectionOf p "hooks" = true := by
  rw [wfSections] at h
  simp only [Bool.and_eq_true] at h
  exact ⟨h.1.1.1, h.1.1.2, h.1.2, h.2⟩

theorem findModule_sectionItems_merge (merged p : Obj) (c x : String)
    (hc : c = "providers" ∨ c = "tools" ∨ c = "hooks")
    (hndp : keysNodup p = true) (hwfc : wfSectionOf p c = true)
    (hmarr : ∀ v, alLookup merged c = some v → ∃ l, v = Value.arr l) :
    (∀ v, alLookup (merge_profile_dicts merged p) c = some v → ∃ l, v = Value.arr l) ∧
    (entryFor p c x = none →
      findModule (sectionItemsOf (merge_profile_dicts merged p) c) x
        = findModule (sectionItemsOf merged c) x) ∧
    (∀ eA, entryFor p c x = some eA →
      findModule (sectionItemsOf merged c) x = none →
      findModule (sectionItemsOf (merge_profile_dicts merged p) c) x = some eA) := by
  have hcontains : moduleSections.contains c = true := by
    rcases hc with rfl | rfl | rfl <;> rfl
  have hlk := lookup_mergeTop p hndp c merged
  rw [merge_profile_dicts]
  cases hp : alLookup p c with
  | none =>
    rw [hp] at hlk
    have hitems : sectionItemsOf (mergeTop merged p) c = sectionItemsOf merged c := by
      rw [sectionItemsOf, sectionItemsOf, hlk]
    have hpf : entryFor p c x = none := by
      rw [entryFor, sectionItemsOf, hp]
      rfl
    refine ⟨?_, ?_, ?_⟩
    · intro v hv
      rw [hlk] at hv
      exact hmarr v hv
    · intro _
      rw [hitems]
    · intro eA heA
      rw [hpf] at heA
      cases heA
  | some vp =>
    rw [wfSectionOf, hp] at hwfc
    cases vp with
    | arr os =>
      obtain ⟨hids, hobjs⟩ := itemsWF_parts os hwfc
      rw [hp] at hlk
      have hlk2 : alLookup (mergeTop merged p) c
          = some (combineTop c (alLookup merged c) (Value.arr os)) := hlk
      have hpf : entryFor p c x = findModule os x := by
        rw [entryFor, sectionItemsOf, hp]
      cases hm : alLookup merged c with
      | none =>
        rw [hm] at hlk2
        have hval : combineTop c none (Value.arr os) = Value.arr os := rfl
        rw [hval] at hlk2
        have hitems : sectionItemsOf (mergeTop merged p) c = os := by
          rw [sectionItemsOf, hlk2]
        have hmempty : sectionItemsOf merged c = [] := by
          rw [sectionItemsOf, hm]
        refine ⟨?_, ?_, ?_⟩
        · intro v hv
          rw [hlk2] at hv
          cases hv
          exact ⟨os, rfl⟩
        · intro hno
          rw [hpf] at hno
          rw [hitems, hmempty, hno]
          rfl
        · intro eA heA _
          rw [hpf] at heA
          rw [hitems]
          exact heA
      | some vm =>
        obtain ⟨ps', rfl⟩ := hmarr vm hm
        rw [hm] at hlk2
        have hval : combineTop c (some (Value.arr ps')) (Value.arr os)
            = Value.arr (mergeModuleLists ps' os) := by
          rw [combineTop, if_pos hcontains]
        rw [hval] at hlk2
        have hitems : sectionItemsOf (mergeTop merged p) c = mergeModuleLists ps' os := by
          rw [sectionItemsOf, hlk2]
        have hmitems : sectionItemsOf merged c = ps' := by
          rw [sectionItemsOf, hm]
        refine ⟨?_, ?_, ?_⟩
        · intro v hv
          rw [hlk2] at hv
          cases hv
          exact ⟨mergeModuleLists ps' os, rfl⟩
        · intro hno
          rw [hpf] at hno
          rw [hitems, hmitems, mergeModuleLists, findModule_append,
            findModule_map_mergeParentEntry os x hobjs ps' (Or.inl hno),
            findModule_filter_none ps' os x hno]
          cases findModule ps' x <;> rfl
        · intro eA heA hnops
          rw [hpf] at heA
          rw [hmitems] at hnops
          rw [hitems, mergeModuleLists, findModule_append,
            findModule_map_mergeParentEntry os x hobjs ps' (Or.inr hnops),
            hnops, findModule_filter_hit ps' x eA hnops os heA]
    | null => exact absurd hwfc (by simp)
    | bool b => exact absurd hwfc (by simp)
    | num n => exact absurd hwfc (by simp)
    | str s => exact absurd hwfc (by simp)
    | obj o => exact absurd hwfc (by simp)
    | raw t => exact absurd hwfc (by simp)

theorem updSection_configFields (s : Sources) (c : String)
    (g : List (String × Prov) → List (String × Prov)) :
    (Sources.updSection s c g).configFields = s.configFields := by
  rw [Sources.updSection]
  split_ifs <;> rfl

theorem getSection_updSection_self (s : Sources) (c : String)
    (g : List (String × Prov) → List (String × Prov))
    (hc : c = "providers" ∨ c = "tools" ∨ c = "hooks") :
    (Sources.updSection s c g).getSection c = g (s.getSection c) := by
  rcases hc with rfl | rfl | rfl <;> rfl

theorem getSection_updSection_ne (s : Sources) (c' : String)
    (g : List (String × Prov) → List (String × Prov)) (c : String)
    (hne : c' ≠ c) :
    (Sources.updSection s c' g).getSection c = s.getSection c := by
  rw [Sources.updSection, Sources.getSection, Sources.getSection]
  split_ifs <;> simp_all

theorem string_key_inj (c a b : String) (h : c ++ "." ++ a = c ++ "." ++ b) :
    a = b := by
  have hd := congrArg String.data h
  simp only [String.data_append] at hd
  have hd2 : a.data = b.data := List.append_cancel_left hd
  cases a
  cases b
  simp only [] at hd2
  rw [hd2]

theorem head_of_append (pre m : String) (c0 : Char)
    (h : pre.data.head? = some c0) : (pre ++ m).data.head? = some c0 := by
  rw [String.data_append]
  cases hd : pre.data with
  | nil => rw [hd] at h; cases h
  | cons a l =>
    rw [hd] at h
    injection h with h'
    rw [List.cons_append, ← h']
    rfl

theorem append_key_ne_of_head_ne (c1 c2 m x : String) (a b : Char)
    (h1 : c1.data.head? = some a) (h2 : c2.data.head? = some b) (hab : a ≠ b) :
    c1 ++ m ≠ c2 ++ x := by
  intro h
  have k1 : (c1 ++ m).data.head? = some a := head_of_append c1 m a h1
  have k2 : (c2 ++ x).data.head? = some b := head_of_append c2 x b h2
  rw [h, k2] at k1
  injection k1 with k
  exact hab k.symm

theorem sectionKey_ne_of_section_ne (c' c m x : String)
    (hc' : c' = "providers" ∨ c' = "tools" ∨ c' = "hooks")
    (hc : c = "providers" ∨ c = "tools" ∨ c = "hooks")
    (hne : c' ≠ c) : c' ++ "." ++ m ≠ c ++ "." ++ x := by
  rcases hc' with rfl | rfl | rfl <;> rcases hc with rfl | rfl | rfl <;>
    first
    | exact absurd rfl hne
    | exact append_key_ne_of_head_ne _ _ m x 'p' 't' (by decide) (by decide) (by decide)
    | exact append_key_ne_of_head_ne _ _ m x 'p' 'h' (by decide) (by decide) (by decide)
    | exact append_key_ne_of_head_ne _ _ m x 't' 'p' (by decide) (by decide) (by decide)
    | exact append_key_ne_of_head_ne _ _ m x 't' 'h' (by decide) (by decide) (by decide)
    | exact append_key_ne_of_head_ne _ _ m x 'h' 'p' (by decide) (by decide) (by decide)
    | exact append_key_ne_of_head_ne _ _ m x 'h' 't' (by decide) (by decide) (by decide)

theorem getSection_setConfigFields (s : Sources)
    (X : List (String × List (String × Prov))) (c : String) :
    ({ s with configFields := X } : Sources).getSection c = s.getSection c := rfl

theorem getSection_setConfigModifiedBy (s : Sources)
    (X : List (String × List (String × String))) (c : String) :
    ({ s with configModifiedBy := X } : Sources).getSection c = s.getSection c := rfl

theorem configFields_setConfigModifiedBy (s : Sources)
    (X : List (String × List (String × String))) :
    ({ s with configModifiedBy := X } : Sources).configFields = s.configFields := rfl

theorem recordModuleNew_preserves (n c' : String) (s : Sources) (mid c x : String)
    (hc' : c' = "providers" ∨ c' = "tools" ∨ c' = "hooks")
    (hc : c = "providers" ∨ c = "tools" ∨ c = "hooks")
    (hnc : ¬(c' = c ∧ mid = x)) :
    modProvAt (recordModuleNew n c' s mid) c x = modProvAt s c x ∧
    cfgFieldsAt (recordModuleNew n c' s mid) c x = cfgFieldsAt s c x := by
  have hkeyne : c' ++ "." ++ mid ≠ c ++ "." ++ x := by
    by_cases hcc : c' = c
    · subst hcc
      intro h
      exact hnc ⟨rfl, string_key_inj c' mid x h⟩
    · exact sectionKey_ne_of_section_ne c' c mid x hc' hc hcc
  constructor
  · rw [modProvAt, modProvAt, recordModuleNew, getSection_setConfigFields]
    by_cases hcc : c' = c
    · subst hcc
      rw [getSection_updSection_self s c' _ hc']
      exact alLookup_upsert_ne _ _ _ _ (fun h => hnc ⟨rfl, h⟩)
    · rw [getSection_updSection_ne s c' _ c hcc]
  · rw [cfgFieldsAt, cfgFieldsAt, recordModuleNew]
    simp only []
    rw [alLookup_upsert_ne _ _ _ _ hkeyne, updSection_configFields]

theorem recordModuleExisting_preserves (n c' : String) (s : Sources)
    (ikvs : Obj) (mid : String) (em : Value) (c x : String)
    (hc' : c' = "providers" ∨ c' = "tools" ∨ c' = "hooks")
    (hc : c = "providers" ∨ c = "tools" ∨ c = "hooks")
    (hnc : ¬(c' = c ∧ mid = x)) :
    modProvAt (recordModuleExisting n c' s ikvs mid em) c x = modProvAt s c x ∧
    cfgFieldsAt (recordModuleExisting n c' s ikvs mid em) c x = cfgFieldsAt s c x := by
  have hkeyne : c' ++ "." ++ mid ≠ c ++ "." ++ x := by
    by_cases hcc : c' = c
    · subst hcc
      intro h
      exact hnc ⟨rfl, string_key_inj c' mid x h⟩
    · exact sectionKey_ne_of_section_ne c' c mid x hc' hc hcc
  have hgs : ∀ w, alLookup ((Sources.updSection s c'
      (fun m => alUpsert m mid w)).getSection c) x = alLookup (s.getSection c) x := by
    intro w
    by_cases hcc : c' = c
    · subst hcc
      rw [getSection_updSection_self s c' _ hc']
      exact alLookup_upsert_ne _ _ _ _ (fun h => hnc ⟨rfl, h⟩)
    · rw [getSection_updSection_ne s c' _ c hcc]
  simp only [recordModuleExisting, modProvAt, cfgFieldsAt]
  split_ifs with hsrc hcfg
  · split
    · constructor
      · rw [getSection_setConfigFields]
        exact hgs _
      · simp only []
        rw [alLookup_upsert_ne _ _ _ _ hkeyne, updSection_configFields]
    · exact ⟨hgs _, by rw [updSection_configFields]⟩
  · split
    · constructor
      · rw [getSection_setConfigFields, getSection_setConfigModifiedBy]
        exact hgs _
      · simp only []
        rw [alLookup_upsert_ne _ _ _ _ hkeyne, configFields_setConfigModifiedBy,
          updSection_configFields]
    · constructor
      · rw [getSection_setConfigModifiedBy]
        exact hgs _
      · rw [configFields_setConfigModifiedBy, updSection_configFields]
  · split
    · constructor
      · rw [getSection_setConfigFields]
      · simp only []
        rw [alLookup_upsert_ne _ _ _ _ hkeyne]
    · exact ⟨rfl, rfl⟩

theorem recordModuleItem_preserves (n c' : String) (merged : Obj) (item : Value)
    (c x : String)
    (hc' : c' = "providers" ∨ c' = "tools" ∨ c' = "hooks")
    (hc : c = "providers" ∨ c = "tools" ∨ c = "hooks")
    (hskip : ∀ ikvs mid, item = Value.obj ikvs →
      alLookup ikvs "module" = some (Value.str mid) → ¬(c' = c ∧ mid = x))
    (s : Sources) :
    modProvAt (recordModuleItem n c' merged s item) c x = modProvAt s c x ∧
    cfgFieldsAt (recordModuleItem n c' merged s item) c x = cfgFieldsAt s c x := by
  cases item with
  | obj ikvs =>
    cases hmod : alLookup ikvs "module" with
    | none =>
      have hred : recordModuleItem n c' merged s (Value.obj ikvs) = s := by
        rw [recordModuleItem, hmod]
      rw [hred]
      exact ⟨rfl, rfl⟩
    | some v =>
      cases v with
      | str mid =>
        have hred : recordModuleItem n c' merged s (Value.obj ikvs)
            = recordModuleId n c' merged s ikvs mid := by
          rw [recordModuleItem, hmod]
        rw [hred]
        have hnc := hskip ikvs mid rfl hmod
        rw [recordModuleId]
        cases hfm : findModule (sectionItemsOf merged c') mid with
        | none => exact recordModuleNew_preserves n c' s mid c x hc' hc hnc
        | some em => exact recordModuleExisting_preserves n c' s ikvs mid em c x hc' hc hnc
      | null => exact ⟨by rw [recordModuleItem, hmod], by rw [recordModuleItem, hmod]⟩
      | bool b => exact ⟨by rw [recordModuleItem, hmod], by rw [recordModuleItem, hmod]⟩
      | num n0 => exact ⟨by rw [recordModuleItem, hmod], by rw [recordModuleItem, hmod]⟩
      | arr xs => exact ⟨by rw [recordModuleItem, hmod], by rw [recordModuleItem, hmod]⟩
      | obj o2 => exact ⟨by rw [recordModuleItem, hmod], by rw [recordModuleItem, hmod]⟩
      | raw t => exact ⟨by rw [recordModuleItem, hmod], by rw [recordModuleItem, hmod]⟩
  | null => exact ⟨rfl, rfl⟩
  | bool b => exact ⟨rfl, rfl⟩
  | num n0 => exact ⟨rfl, rfl⟩
  | str s0 => exact ⟨rfl, rfl⟩
  | arr xs => exact ⟨rfl, rfl⟩
  | raw t => exact ⟨rfl, rfl⟩

theorem recordConfigFields_cons (n : String) (existingCfg : Obj) (old : String)
    (fl0 : List (String × Prov)) (k : String) (v : Value) (rest : Obj) :
    recordConfigFields n existingCfg old fl0 ((k, v) :: rest)
      = recordConfigFields n existingCfg old
          (if alHasKey existingCfg k = true then
            alUpsert fl0 k (Prov.two n ((alLookup fl0 k).getD (Prov.one old)))
          else alUpsert fl0 k (Prov.one n)) rest := rfl

theorem recordConfigFields_preserve (n : String) (existingCfg : Obj) (old : String) :
    ∀ (cfg : Obj) (fl0 : List (String × Prov)) (f : String), alHasKey cfg f = false →
      alLookup (recordConfigFields n existingCfg old fl0 cfg) f = alLookup fl0 f := by
  intro cfg
  induction cfg with
  | nil => intro fl0 f _; rfl
  | cons kv rest ih =>
    intro fl0 f hnk
    rcases kv with ⟨k, v⟩
    have hkf : k ≠ f := by
      intro he
      rw [alHasKey, alLookup, if_pos he] at hnk
      cases hnk
    have hrest : alHasKey rest f = false := by
      rw [alHasKey] at hnk ⊢
      rw [alLookup, if_neg hkf] at hnk
      exact hnk
    rw [recordConfigFields_cons, ih _ f hrest]
    by_cases hex : alHasKey existingCfg k = true
    · rw [if_pos hex, alLookup_upsert_ne _ _ _ _ hkf]
    · rw [if_neg hex, alLookup_upsert_ne _ _ _ _ hkf]

theorem recordConfigFields_first (n : String) (existingCfg : Obj) (old : String) :
    ∀ (cfg : Obj), keysNodup cfg = true →
      ∀ (fl0 : List (String × Prov)) (f : String), alHasKey cfg f = true →
        ∃ pv, alLookup (recordConfigFields n existingCfg old fl0 cfg) f = some pv ∧
          pv.first = n := by
  intro cfg
  induction cfg with
  | nil =>
    intro _ fl0 f hk
    rw [alHasKey, alLookup] at hk
    cases hk
  | cons kv rest ih =>
    intro hnd fl0 f hk
    rw [keysNodup] at hnd
    simp only [Bool.and_eq_true, Bool.not_eq_true'] at hnd
    obtain ⟨hfresh, hndrest⟩ := hnd
    rcases kv with ⟨k, v⟩
    rw [recordConfigFields_cons]
    by_cases hkf : k = f
    · subst hkf
      have hrest : alHasKey rest k = false := by
        rw [alHasKey, alLookup_eq_none_of_any_false rest k (by simpa using hfresh)]
        rfl
      rw [recordConfigFields_preserve n existingCfg old rest _ k hrest]
      by_cases hex : alHasKey existingCfg k = true
      · rw [if_pos hex, alLookup_upsert_self]
        exact ⟨_, rfl, rfl⟩
      · rw [if_neg hex, alLookup_upsert_self]
        exact ⟨_, rfl, rfl⟩
    · have hrestf : alHasKey rest f = true := by
        rw [alHasKey] at hk ⊢
        rw [alLookup, if_neg hkf] at hk
        exact hk
      exact ih hndrest _ f hrestf

theorem recordModuleItem_x_intro (n c x : String) (merged : Obj) (s : Sources)
    (ikvs : Obj)
    (hc : c = "providers" ∨ c = "tools" ∨ c = "hooks")
    (hmod : alLookup ikvs "module" = some (Value.str x))
    (hno : findModule (sectionItemsOf merged c) x = none) :
    modProvAt (recordModuleItem n c merged s (Value.obj ikvs)) c x
      = some (Prov.one n) ∧
    cfgFieldsAt (recordModuleItem n c merged s (Value.obj ikvs)) c x
      = some [] := by
  have hred : recordModuleItem n c merged s (Value.obj ikvs)
      = recordModuleId n c merged s ikvs x := by
    rw [recordModuleItem, hmod]
  have hred2 : recordModuleId n c merged s ikvs x = recordModuleNew n c s x := by
    rw [recordModuleId, hno]
  rw [hred, hred2]
  constructor
  · rw [modProvAt, recordModuleNew, getSection_setConfigFields,
      getSection_updSection_self s c _ hc, alLookup_upsert_self]
  · rw [cfgFieldsAt, recordModuleNew]
    simp only []
    rw [alLookup_upsert_self]

theorem recordModuleItem_x_configOnly (n c x lA : String) (merged : Obj)
    (s : Sources) (ikvs : Obj) (em : Value) (cfgB : Obj)
    (hc : c = "providers" ∨ c = "tools" ∨ c = "hooks")
    (hmod : alLookup ikvs "module" = some (Value.str x))
    (hfm : findModule (sectionItemsOf merged c) x = some em)
    (hnosrc : alHasKey ikvs "source" = false)
    (hcfg : alLookup ikvs "config" = some (Value.obj cfgB))
    (hndcfg : keysNodup cfgB = true)
    (hmp : modProvAt s c x = some (Prov.one lA)) :
    modProvAt (recordModuleItem n c merged s (Value.obj ikvs)) c x
      = some (Prov.one lA) ∧
    ∃ flds, cfgFieldsAt (recordModuleItem n c merged s (Value.obj ikvs)) c x
        = some flds ∧
      ∀ f, alHasKey cfgB f = true →
        ∃ pv, alLookup flds f = some pv ∧ pv.first = n := by
  have hred : recordModuleItem n c merged s (Value.obj ikvs)
      = recordModuleId n c merged s ikvs x := by
    rw [recordModuleItem, hmod]
  have hred2 : recordModuleId n c merged s ikvs x
      = recordModuleExisting n c s ikvs x em := by
    rw [recordModuleId, hfm]
  have hns' : ¬ alHasKey ikvs "source" = true := by
    rw [hnosrc]
    exact fun h => nomatch h
  have hhascfg : alHasKey ikvs "config" = true := by
    rw [alHasKey, hcfg]
    rfl
  have hold : ((alLookup (Sources.getSection s c) x).getD (Prov.one "")).first = lA := by
    rw [modProvAt] at hmp
    rw [hmp]
    rfl
  rw [hred, hred2]
  simp only [recordModuleExisting, modProvAt, cfgFieldsAt]
  rw [if_neg hns', if_pos hhascfg]
  split
  · rename_i cfg heq
    rw [hcfg] at heq
    injection heq with h1
    injection h1 with h2
    subst h2
    constructor
    · rw [getSection_setConfigFields, getSection_setConfigModifiedBy,
        getSection_updSection_self s c _ hc, alLookup_upsert_self, hold]
    · simp only []
      rw [alLookup_upsert_self]
      refine ⟨_, rfl, ?_⟩
      intro f hf
      exact recordConfigFields_first n _ _ cfgB hndcfg _ f hf
  · rename_i hno2
    exact (hno2 cfgB hcfg).elim

theorem foldl_recordModuleItem_preserves (n c' : String) (merged : Obj)
    (c x : String)
    (hc' : c' = "providers" ∨ c' = "tools" ∨ c' = "hooks")
    (hc : c = "providers" ∨ c = "tools" ∨ c = "hooks") :
    ∀ (items : List Value),
      (∀ it ∈ items, ∀ ikvs mid, it = Value.obj ikvs →
        alLookup ikvs "module" = some (Value.str mid) → ¬(c' = c ∧ mid = x)) →
      ∀ s, modProvAt (items.foldl (recordModuleItem n c' merged) s) c x
            = modProvAt s c x ∧
        cfgFieldsAt (items.foldl (recordModuleItem n c' merged) s) c x
            = cfgFieldsAt s c x := by
  intro items
  induction items with
  | nil => intro _ s; exact ⟨rfl, rfl⟩
  | cons it rest ih =>
    intro hskip s
    rw [List.foldl_cons]
    have h1 := recordModuleItem_preserves n c' merged it c x hc' hc
      (fun ikvs mid he hm => hskip it (List.mem_cons_self it rest) ikvs mid he hm) s
    have h2 := ih (fun it' hmem ikvs mid he hm =>
      hskip it' (List.mem_cons_of_mem it hmem) ikvs mid he hm)
      (recordModuleItem n c' merged s it)
    exact ⟨h2.1.trans h1.1, h2.2.trans h1.2⟩

theorem findModule_split (x : String) :
    ∀ (its : List Value) (itx : Value), findModule its x = some itx →
      ∃ l1 l2, its = l1 ++ itx :: l2 ∧
        (∀ it ∈ l1, (entryModuleId it == some x) = false) ∧
        (entryModuleId itx == some x) = true := by
  intro its
  induction its with
  | nil => intro itx h; cases h
  | cons a rest ih =>
    intro itx h
    rw [findModule, List.find?_cons] at h
    cases hq : (entryModuleId a == some x) with
    | true =>
      rw [hq] at h
      have h2 : some a = some itx := h
      injection h2 with h'
      subst h'
      exact ⟨[], rest, rfl, fun it hmem => absurd hmem (List.not_mem_nil it), hq⟩
    | false =>
      rw [hq] at h
      have h2 : findModule rest x = some itx := h
      obtain ⟨l1, l2, he, hall, hx⟩ := ih itx h2
      refine ⟨a :: l1, l2, by rw [List.cons_append, he], ?_, hx⟩
      intro it hmem
      rcases List.mem_cons.mp hmem with rfl | hmem'
      · exact hq
      · exact hall it hmem'

theorem entryIdsNodup_append_right :
    ∀ (l1 l2 : List Value), entryIdsNodup (l1 ++ l2) = true →
      entryIdsNodup l2 = true := by
  intro l1
  induction l1 with
  | nil => intro l2 h; exact h
  | cons a rest ih =>
    intro l2 h
    rw [List.cons_append, entryIdsNodup] at h
    simp only [Bool.and_eq_true] at h
    exact ih l2 h.2

theorem after_x_not_x (itx : Value) (l2 : List Value) (x : String)
    (hnd : entryIdsNodup (itx :: l2) = true)
    (hx : (entryModuleId itx == some x) = true) :
    ∀ it ∈ l2, (entryModuleId it == some x) = false := by
  rw [entryIdsNodup] at hnd
  simp only [Bool.and_eq_true] at hnd
  obtain ⟨hhead, _⟩ := hnd
  have hmid : entryModuleId itx = some x := by
    cases hm : entryModuleId itx with
    | some mid =>
      rw [hm] at hx
      have : mid = x := by simpa using hx
      rw [this]
    | none =>
      rw [hm] at hx
      simp at hx
  intro it hmem
  cases hr : (entryModuleId it == some x) with
  | false => rfl
  | true =>
    have hany : (l2.any fun it' => entryModuleId it' == some x) = true :=
      List.any_eq_true.mpr ⟨it, hmem, hr⟩
    rw [hmid] at hhead
    simp only [] at hhead
    rw [hany] at hhead
    cases hhead

theorem entryModuleId_eq_some (it : Value) (x : String)
    (h : (entryModuleId it == some x) = true) :
    ∃ ikvs, it = Value.obj ikvs ∧ alLookup ikvs "module" = some (Value.str x) := by
  cases it with
  | obj kvs =>
    cases hm : alLookup kvs "module" with
    | some v =>
      cases v with
      | str s =>
        have hid : entryModuleId (Value.obj kvs) = some s := by
          simp [entryModuleId, hm]
        rw [hid] at h
        have hs : s = x := by simpa using h
        subst hs
        exact ⟨kvs, rfl, hm⟩
      | null => simp [entryModuleId, hm] at h
      | bool b => simp [entryModuleId, hm] at h
      | num n0 => simp [entryModuleId, hm] at h
      | arr l => simp [entryModuleId, hm] at h
      | obj o => simp [entryModuleId, hm] at h
      | raw t => simp [entryModuleId, hm] at h
    | none => simp [entryModuleId, hm] at h
  | null => simp [entryModuleId] at h
  | bool b => simp [entryModuleId] at h
  | num n0 => simp [entryModuleId] at h
  | str s0 => simp [entryModuleId] at h
  | arr l => simp [entryModuleId] at h
  | raw t => simp [entryModuleId] at h

theorem wfSectionOf_ids (p : Obj) (c : String) (h : wfSectionOf p c = true) :
    entryIdsNodup (sectionItemsOf p c) = true := by
  rw [wfSectionOf] at h
  cases hl : alLookup p c with
  | none =>
    have hit : sectionItemsOf p c = [] := by rw [sectionItemsOf, hl]
    rw [hit]
    rfl
  | some v =>
    rw [hl] at h
    cases v with
    | arr items =>
      have hit : sectionItemsOf p c = items := by rw [sectionItemsOf, hl]
      rw [hit]
      exact (itemsWF_parts items h).1
    | null => exact absurd h (by simp)
    | bool b => exact absurd h (by simp)
    | num n0 => exact absurd h (by simp)
    | str s0 => exact absurd h (by simp)
    | obj o => exact absurd h (by simp)
    | raw t => exact absurd h (by simp)

theorem skip_of_pred_false (c x : String) (l : List Value)
    (hl : ∀ it ∈ l, (entryModuleId it == some x) = false) :
    ∀ it ∈ l, ∀ ikvs mid, it = Value.obj ikvs →
      alLookup ikvs "module" = some (Value.str mid) → ¬(c = c ∧ mid = x) := by
  intro it hmem ikvs mid he hm hand
  have hfalse := hl it hmem
  have hid : entryModuleId it = some mid := by
    rw [he]
    simp [entryModuleId, hm]
  rw [hid, hand.2] at hfalse
  simp at hfalse

theorem recordSection_preserves_at (n c' : String) (p merged : Obj) (c x : String)
    (hc' : c' = "providers" ∨ c' = "tools" ∨ c' = "hooks")
    (hc : c = "providers" ∨ c = "tools" ∨ c = "hooks")
    (hor : c' ≠ c ∨ entryFor p c x = none)
    (s : Sources) :
    modProvAt (recordSection n c' p merged s) c x = modProvAt s c x ∧
    cfgFieldsAt (recordSection n c' p merged s) c x = cfgFieldsAt s c x := by
  rw [recordSection]
  apply foldl_recordModuleItem_preserves n c' merged c x hc' hc
  intro it hmem ikvs mid he hm hand
  obtain ⟨hcc, hmx⟩ := hand
  rcases hor with hne | hnone
  · exact hne hcc
  · subst hcc
    subst hmx
    rw [entryFor, findModule] at hnone
    have hpred : (entryModuleId it == some mid) = true := by
      rw [he]
      simp [entryModuleId, hm]
    exact (List.find?_eq_none.mp hnone it hmem) hpred

theorem recordSection_x_intro (n c x : String) (p merged : Obj) (itx : Value)
    (hc : c = "providers" ∨ c = "tools" ∨ c = "hooks")
    (hwfc : wfSectionOf p c = true)
    (hx : entryFor p c x = some itx)
    (hno : findModule (sectionItemsOf merged c) x = none)
    (s : Sources) :
    modProvAt (recordSection n c p merged s) c x = some (Prov.one n) ∧
    cfgFieldsAt (recordSection n c p merged s) c x = some [] := by
  rw [recordSection]
  rw [entryFor] at hx
  obtain ⟨l1, l2, hsplit, hl1, hxtrue⟩ := findModule_split x (sectionItemsOf p c) itx hx
  obtain ⟨ikvs, rfl, hmod⟩ := entryModuleId_eq_some itx x hxtrue
  have hids : entryIdsNodup (sectionItemsOf p c) = true := wfSectionOf_ids p c hwfc
  have hl2 : ∀ it ∈ l2, (entryModuleId it == some x) = false := by
    have hnd2 : entryIdsNodup (Value.obj ikvs :: l2) = true := by
      rw [hsplit] at hids
      exact entryIdsNodup_append_right l1 _ hids
    exact after_x_not_x _ l2 x hnd2 hxtrue
  rw [hsplit, List.foldl_append, List.foldl_cons]
  have hitx := recordModuleItem_x_intro n c x merged
    (l1.foldl (recordModuleItem n c merged) s) ikvs hc hmod hno
  have hl2pres := foldl_recordModuleItem_preserves n c merged c x hc hc l2
    (skip_of_pred_false c x l2 hl2)
    (recordModuleItem n c merged (l1.foldl (recordModuleItem n c merged) s)
      (Value.obj ikvs))
  exact ⟨hl2pres.1.trans hitx.1, hl2pres.2.trans hitx.2⟩

theorem recordSection_x_configOnly (n c x lA : String) (p merged : Obj)
    (ikvs cfgB : Obj) (em : Value)
    (hc : c = "providers" ∨ c = "tools" ∨ c = "hooks")
    (hwfc : wfSectionOf p c = true)
    (hx : entryFor p c x = some (Value.obj ikvs))
    (hnosrc : alHasKey ikvs "source" = false)
    (hcfg : alLookup ikvs "config" = some (Value.obj cfgB))
    (hndcfg : keysNodup cfgB = true)
    (hfm : findModule (sectionItemsOf merged c) x = some em)
    (s : Sources) (hmp : modProvAt s c x = some (Prov.one lA)) :
    modProvAt (recordSection n c p merged s) c x = some (Prov.one lA) ∧
    ∃ flds, cfgFieldsAt (recordSection n c p merged s) c x = some flds ∧
      ∀ f, alHasKey cfgB f = true →
        ∃ pv, alLookup flds f = some pv ∧ pv.first = n := by
  rw [recordSection]
  rw [entryFor] at hx
  obtain ⟨l1, l2, hsplit, hl1, hxtrue⟩ :=
    findModule_split x (sectionItemsOf p c) (Value.obj ikvs) hx
  have hids : entryIdsNodup (sectionItemsOf p c) = true := wfSectionOf_ids p c hwfc
  have hl2 : ∀ it ∈ l2, (entryModuleId it == some x) = false := by
    have hnd2 : entryIdsNodup (Value.obj ikvs :: l2) = true := by
      rw [hsplit] at hids
      exact entryIdsNodup_append_right l1 _ hids
    exact after_x_not_x _ l2 x hnd2 hxtrue
  rw [hsplit, List.foldl_append, List.foldl_cons]
  have hl1pres := foldl_recordModuleItem_preserves n c merged c x hc hc l1
    (skip_of_pred_false c x l1 hl1) s
  have hmp1 : modProvAt (l1.foldl (recordModuleItem n c merged) s) c x
      = some (Prov.one lA) := hl1pres.1.trans hmp
  have hitx := recordModuleItem_x_configOnly n c x lA merged
    (l1.foldl (recordModuleItem n c merged) s) ikvs em cfgB hc
    (by
      obtain ⟨ikvs', heq, hmod⟩ := entryModuleId_eq_some (Value.obj ikvs) x hxtrue
      injection heq with hik
      rw [hik]
      exact hmod)
    hfm hnosrc hcfg hndcfg hmp1
  obtain ⟨hmp2, flds, hflds, hprop⟩ := hitx
  have hl2pres := foldl_recordModuleItem_preserves n c merged c x hc hc l2
    (skip_of_pred_false c x l2 hl2)
    (recordModuleItem n c merged (l1.foldl (recordModuleItem n c merged) s)
      (Value.obj ikvs))
  exact ⟨hl2pres.1.trans hmp2, flds, hl2pres.2.trans hflds, hprop⟩

theorem recordAgents_preserves_at (n : String) (p merged : Obj) (s : Sources)
    (c x : String) :
    modProvAt (recordAgents n p merged s) c x = modProvAt s c x ∧
    cfgFieldsAt (recordAgents n p merged s) c x = cfgFieldsAt s c x := by
  rw [recordAgents]
  split_ifs <;> exact ⟨rfl, rfl⟩

theorem processMember_preserves_at (st : BuildState) (p : Obj) (n : String)
    (c x : String) (hc : c = "providers" ∨ c = "tools" ∨ c = "hooks")
    (hnox : entryFor p c x = none) :
    modProvAt (processMember st p n).sources c x = modProvAt st.sources c x ∧
    cfgFieldsAt (processMember st p n).sources c x = cfgFieldsAt st.sources c x := by
  simp only [processMember]
  constructor
  · rw [(recordAgents_preserves_at n p st.merged _ c x).1,
      (recordSection_preserves_at n "hooks" p st.merged c x
        (Or.inr (Or.inr rfl)) hc (Or.inr hnox) _).1,
      (recordSection_preserves_at n "tools" p st.merged c x
        (Or.inr (Or.inl rfl)) hc (Or.inr hnox) _).1,
      (recordSection_preserves_at n "providers" p st.merged c x
        (Or.inl rfl) hc (Or.inr hnox) _).1]
    rfl
  · rw [(recordAgents_preserves_at n p st.merged _ c x).2,
      (recordSection_preserves_at n "hooks" p st.merged c x
        (Or.inr (Or.inr rfl)) hc (Or.inr hnox) _).2,
      (recordSection_preserves_at n "tools" p st.merged c x
        (Or.inr (Or.inl rfl)) hc (Or.inr hnox) _).2,
      (recordSection_preserves_at n "providers" p st.merged c x
        (Or.inl rfl) hc (Or.inr hnox) _).2]
    rfl

theorem processMember_merged_at (st : BuildState) (p : Obj) (n : String)
    (c x : String) (hc : c = "providers" ∨ c = "tools" ∨ c = "hooks")
    (hwf : wfSections p = true)
    (hmarr : ∀ v, alLookup st.merged c = some v → ∃ l, v = Value.arr l) :
    (∀ v, alLookup (processMember st p n).merged c = some v → ∃ l, v = Value.arr l) ∧
    (entryFor p c x = none →
      findModule (sectionItemsOf (processMember st p n).merged c) x
        = findModule (sectionItemsOf st.merged c) x) ∧
    (∀ eA, entryFor p c x = some eA →
      findModule (sectionItemsOf st.merged c) x = none →
      findModule (sectionItemsOf (processMember st p n).merged c) x = some eA) := by
  rw [processMember_merged]
  obtain ⟨hnd, hp, ht, hh⟩ := wfSections_parts p hwf
  have hwfc : wfSectionOf p c = true := by rcases hc with rfl | rfl | rfl <;> assumption
  exact findModule_sectionItems_merge st.merged p c x hc hnd hwfc hmarr

theorem processMember_x_intro (st : BuildState) (pA : Obj) (n : String)
    (c x : String) (ikvsA : Obj)
    (hc : c = "providers" ∨ c = "tools" ∨ c = "hooks")
    (hwf : wfSections pA = true)
    (hA : entryFor pA c x = some (Value.obj ikvsA))
    (hno : findModule (sectionItemsOf st.merged c) x = none) :
    modProvAt (processMember st pA n).sources c x = some (Prov.one n) ∧
    cfgFieldsAt (processMember st pA n).sources c x = some [] := by
  obtain ⟨hnd, hp, ht, hh⟩ := wfSections_parts pA hwf
  simp only [processMember]
  rcases hc with rfl | rfl | rfl
  · constructor
    · rw [(recordAgents_preserves_at n pA st.merged _ "providers" x).1,
        (recordSection_preserves_at n "hooks" pA st.merged "providers" x
          (Or.inr (Or.inr rfl)) (Or.inl rfl) (Or.inl (by decide)) _).1,
        (recordSection_preserves_at n "tools" pA st.merged "providers" x
          (Or.inr (Or.inl rfl)) (Or.inl rfl) (Or.inl (by decide)) _).1]
      exact (recordSection_x_intro n "providers" x pA st.merged (Value.obj ikvsA)
        (Or.inl rfl) hp hA hno _).1
    · rw [(recordAgents_preserves_at n pA st.merged _ "providers" x).2,
        (recordSection_preserves_at n "hooks" pA st.merged "providers" x
          (Or.inr (Or.inr rfl)) (Or.inl rfl) (Or.inl (by decide)) _).2,
        (recordSection_preserves_at n "tools" pA st.merged "providers" x
          (Or.inr (Or.inl rfl)) (Or.inl rfl) (Or.inl (by decide)) _).2]
      exact (recordSection_x_intro n "providers" x pA st.merged (Value.obj ikvsA)
        (Or.inl rfl) hp hA hno _).2
  · constructor
    · rw [(recordAgents_preserves_at n pA st.merged _ "tools" x).1,
        (recordSection_preserves_at n "hooks" pA st.merged "tools" x
          (Or.inr (Or.inr rfl)) (Or.inr (Or.inl rfl)) (Or.inl (by decide)) _).1,
        (recordSection_x_intro n "tools" x pA st.merged (Value.obj ikvsA)
          (Or.inr (Or.inl rfl)) ht hA hno _).1]
    · rw [(recordAgents_preserves_at n pA st.merged _ "tools" x).2,
        (recordSection_preserves_at n "hooks" pA st.merged "tools" x
          (Or.inr (Or.inr rfl)) (Or.inr (Or.inl rfl)) (Or.inl (by decide)) _).2,
        (recordSection_x_intro n "tools" x pA st.merged (Value.obj ikvsA)
          (Or.inr (Or.inl rfl)) ht hA hno _).2]
  · constructor
    · rw [(recordAgents_preserves_at n pA st.merged _ "hooks" x).1,
        (recordSection_x_intro n "hooks" x pA st.merged (Value.obj ikvsA)
          (Or.inr (Or.inr rfl)) hh hA hno _).1]
    · rw [(recordAgents_preserves_at n pA st.merged _ "hooks" x).2,
        (recordSection_x_intro n "hooks" x pA st.merged (Value.obj ikvsA)
          (Or.inr (Or.inr rfl)) hh hA hno _).2]

theorem processMember_x_configOnly (st : BuildState) (pB : Obj) (n : String)
    (c x lA : String) (ikvsB cfgB : Obj) (em : Value)
    (hc : c = "providers" ∨ c = "tools" ∨ c = "hooks")
    (hwf : wfSections pB = true)
    (hB : entryFor pB c x = some (Value.obj ikvsB))
    (hnosrc : alHasKey ikvsB "source" = false)
    (hcfg : alLookup ikvsB "config" = some (Value.obj cfgB))
    (hndcfg : keysNodup cfgB = true)
    (hfm : findModule (sectionItemsOf st.merged c) x = some em)
    (hmp : modProvAt st.sources c x = some (Prov.one lA)) :
    modProvAt (processMember st pB n).sources c x = some (Prov.one lA) ∧
    ∃ flds, cfgFieldsAt (processMember st pB n).sources c x = some flds ∧
      ∀ f, alHasKey cfgB f = true →
        ∃ pv, alLookup flds f = some pv ∧ pv.first = n := by
  obtain ⟨hnd, hp, ht, hh⟩ := wfSections_parts pB hwf
  simp only [processMember]
  rcases hc with rfl | rfl | rfl
  · have hact := recordSection_x_configOnly n "providers" x lA pB st.merged
      ikvsB cfgB em (Or.inl rfl) hp hB hnosrc hcfg hndcfg hfm
      { st.sources with
        session := recordSession n pB st.merged st.sources.session } hmp
    obtain ⟨hmp2, flds, hflds, hprop⟩ := hact
    constructor
    · rw [(recordAgents_preserves_at n pB st.merged _ "providers" x).1,
        (recordSection_preserves_at n "hooks" pB st.merged "providers" x
          (Or.inr (Or.inr rfl)) (Or.inl rfl) (Or.inl (by decide)) _).1,
        (recordSection_preserves_at n "tools" pB st.merged "providers" x
          (Or.inr (Or.inl rfl)) (Or.inl rfl) (Or.inl (by decide)) _).1]
      exact hmp2
    · refine ⟨flds, ?_, hprop⟩
      rw [(recordAgents_preserves_at n pB st.merged _ "providers" x).2,
        (recordSection_preserves_at n "hooks" pB st.merged "providers" x
          (Or.inr (Or.inr rfl)) (Or.inl rfl) (Or.inl (by decide)) _).2,
        (recordSection_preserves_at n "tools" pB st.merged "providers" x
          (Or.inr (Or.inl rfl)) (Or.inl rfl) (Or.inl (by decide)) _).2]
      exact hflds
  · have hmp1 : modProvAt (recordSection n "providers" pB st.merged
        { st.sources with
          session := recordSession n pB st.merged st.sources.session }) "tools" x
        = some (Prov.one lA) := by
      rw [(recordSection_preserves_at n "providers" pB st.merged "tools" x
        (Or.inl rfl) (Or.inr (Or.inl rfl)) (Or.inl (by decide)) _).1]
      exact hmp
    have hact := recordSection_x_configOnly n "tools" x lA pB st.merged
      ikvsB cfgB em (Or.inr (Or.inl rfl)) ht hB hnosrc hcfg hndcfg hfm _ hmp1
    obtain ⟨hmp2, flds, hflds, hprop⟩ := hact
    constructor
    · rw [(recordAgents_preserves_at n pB st.merged _ "tools" x).1,
        (recordSection_preserves_at n "hooks" pB st.merged "tools" x
          (Or.inr (Or.inr rfl)) (Or.inr (Or.inl rfl)) (Or.inl (by decide)) _).1]
      exact hmp2
    · refine ⟨flds, ?_, hprop⟩
      rw [(recordAgents_preserves_at n pB st.merged _ "tools" x).2,
        (recordSection_preserves_at n "hooks" pB st.merged "tools" x
          (Or.inr (Or.inr rfl)) (Or.inr (Or.inl rfl)) (Or.inl (by decide)) _).2]
      exact hflds
  · have hmp1 : modProvAt (recordSection n "tools" pB st.merged
        (recordSection n "providers" pB st.merged
          { st.sources with
            session := recordSession n pB st.merged st.sources.session })) "hooks" x
        = some (Prov.one lA) := by
      rw [(recordSection_preserves_at n "tools" pB st.merged "hooks" x
        (Or.inr (Or.inl rfl)) (Or.inr (Or.inr rfl)) (Or.inl (by decide)) _).1,
        (recordSection_preserves_at n "providers" pB st.merged "hooks" x
          (Or.inl rfl) (Or.inr (Or.inr rfl)) (Or.inl (by decide)) _).1]
      exact hmp
    have hact := recordSection_x_configOnly n "hooks" x lA pB st.merged
      ikvsB cfgB em (Or.inr (Or.inr rfl)) hh hB hnosrc hcfg hndcfg hfm _ hmp1
    obtain ⟨hmp2, flds, hflds, hprop⟩ := hact
    constructor
    · rw [(recordAgents_preserves_at n pB st.merged _ "hooks" x).1]
      exact hmp2
    · refine ⟨flds, ?_, hprop⟩
      rw [(recordAgents_preserves_at n pB st.merged _ "hooks" x).2]
      exact hflds

theorem foldl_skip_members (c x : String)
    (hc : c = "providers" ∨ c = "tools" ∨ c = "hooks") :
    ∀ (ms : List (Obj × String)) (st : BuildState),
      (∀ m ∈ ms, wfSections m.1 = true) →
      (∀ m ∈ ms, entryFor m.1 c x = none) →
      (∀ v, alLookup st.merged c = some v → ∃ l, v = Value.arr l) →
      modProvAt ((ms.foldl (fun s pn => processMember s pn.1 pn.2) st)).sources c x
          = modProvAt st.sources c x ∧
      cfgFieldsAt ((ms.foldl (fun s pn => processMember s pn.1 pn.2) st)).sources c x
          = cfgFieldsAt st.sources c x ∧
      findModule
          (sectionItemsOf
            ((ms.foldl (fun s pn => processMember s pn.1 pn.2) st)).merged c) x
          = findModule (sectionItemsOf st.merged c) x ∧
      (∀ v, alLookup ((ms.foldl (fun s pn => processMember s pn.1 pn.2) st)).merged c
          = some v → ∃ l, v = Value.arr l) := by
  intro ms
  induction ms with
  | nil => intro st _ _ hmarr; exact ⟨rfl, rfl, rfl, hmarr⟩
  | cons m rest ih =>
    intro st hwf hnox hmarr
    rw [List.foldl_cons]
    have hwfm := hwf m (List.mem_cons_self m rest)
    have hnoxm := hnox m (List.mem_cons_self m rest)
    have hsrc := processMember_preserves_at st m.1 m.2 c x hc hnoxm
    have hmg := processMember_merged_at st m.1 m.2 c x hc hwfm hmarr
    have ihr := ih (processMember st m.1 m.2)
      (fun m' h => hwf m' (List.mem_cons_of_mem _ h))
      (fun m' h => hnox m' (List.mem_cons_of_mem _ h))
      hmg.1
    exact ⟨ihr.1.trans hsrc.1, ihr.2.1.trans hsrc.2,
      ihr.2.2.1.trans (hmg.2.1 hnoxm), ihr.2.2.2⟩

theorem zip_map_fst_snd {α β : Type} : ∀ (l : List (α × β)),
    (l.map Prod.fst).zip (l.map Prod.snd) = l := by
  intro l
  induction l with
  | nil => rfl
  | cons a rest ih =>
    rw [List.map_cons, List.map_cons, List.zip_cons_cons, ih]

set_option maxHeartbeats 2000000 in
/-- C3: for every chain in which member A (labelled `lA`) introduces module
`x` in module-list section `c` with an explicit `source`, no other processed
member touches `x` except a later member B (labelled `lB`) whose entry for
`x` has no `source` and only `config` fields, the recorded module-level
provenance of `x` stays `lA` (B does not reassign module ownership to
itself), while every config field B touches is recorded under
`c.x` with a provenance whose most-recent label is `lB`
(profile.py lines 158-212; the running merge that decides new-vs-existing is
spec-modelled from §4.1). -/
theorem build_sources_config_only_edit
    (chain pre mid post : List (Obj × String)) (pA pB : Obj) (lA lB : String)
    (c x : String) (ikvsA ikvsB cfgB : Obj)
    (hchain : chain = pre ++ ((pA, lA) :: (mid ++ ((pB, lB) :: post))))
    (hc : c = "providers" ∨ c = "tools" ∨ c = "hooks")
    (hwf : ∀ m ∈ chain, wfSections m.1 = true)
    (hpre : ∀ m ∈ pre, entryFor m.1 c x = none)
    (hA : entryFor pA c x = some (Value.obj ikvsA))
    (hAsrc : alHasKey ikvsA "source" = true)
    (hmid : ∀ m ∈ mid, entryFor m.1 c x = none)
    (hB : entryFor pB c x = some (Value.obj ikvsB))
    (hBnosrc : alHasKey ikvsB "source" = false)
    (hBcfg : alLookup ikvsB "config" = some (Value.obj cfgB))
    (hBnd : keysNodup cfgB = true)
    (hpost : ∀ m ∈ post, entryFor m.1 c x = none) :
    modProvAt (build_effective_config_with_sources
        (chain.map Prod.fst) (chain.map Prod.snd)).2 c x = some (Prov.one lA) ∧
    ∃ flds, cfgFieldsAt (build_effective_config_with_sources
        (chain.map Prod.fst) (chain.map Prod.snd)).2 c x = some flds ∧
      ∀ f, alHasKey cfgB f = true →
        ∃ pv, alLookup flds f = some pv ∧ pv.first = lB := by
  subst hchain
  have hwfA : wfSections pA = true := hwf (pA, lA) (by simp)
  have hwfB : wfSections pB = true := hwf (pB, lB) (by simp)
  have hwfpre : ∀ m ∈ pre, wfSections m.1 = true := fun m hm => hwf m (by simp [hm])
  have hwfmid : ∀ m ∈ mid, wfSections m.1 = true := fun m hm => hwf m (by simp [hm])
  have hwfpost : ∀ m ∈ post, wfSections m.1 = true := fun m hm => hwf m (by simp [hm])
  simp only [build_effective_config_with_sources]
  rw [zip_map_fst_snd]
  have hdecomp : (pre ++ ((pA, lA) :: (mid ++ ((pB, lB) :: post)))).foldl
      (fun st pn => processMember st pn.1 pn.2)
      { sources := initialSources, merged := [] }
      = post.foldl (fun st pn => processMember st pn.1 pn.2)
          (processMember
            (mid.foldl (fun st pn => processMember st pn.1 pn.2)
              (processMember
                (pre.foldl (fun st pn => processMember st pn.1 pn.2)
                  { sources := initialSources, merged := [] })
                pA lA))
            pB lB) := by
    rw [List.foldl_append, List.foldl_cons, List.foldl_append, List.foldl_cons]
  rw [hdecomp]
  have h0marr : ∀ v,
      alLookup ({ sources := initialSources, merged := [] } : BuildState).merged c
        = some v → ∃ l, v = Value.arr l := by
    intro v hv
    cases hv
  have hpres := foldl_skip_members c x hc pre
    { sources := initialSources, merged := [] } hwfpre hpre h0marr
  have hno0 : findModule
      (sectionItemsOf ({ sources := initialSources, merged := [] } : BuildState).merged c)
      x = none := rfl
  have hnoPre : findModule
      (sectionItemsOf (pre.foldl (fun st pn => processMember st pn.1 pn.2)
        { sources := initialSources, merged := [] }).merged c) x = none :=
    hpres.2.2.1.trans hno0
  have hAstep := processMember_x_intro
    (pre.foldl (fun st pn => processMember st pn.1 pn.2)
      { sources := initialSources, merged := [] })
    pA lA c x ikvsA hc hwfA hA hnoPre
  have hAmg := processMember_merged_at
    (pre.foldl (fun st pn => processMember st pn.1 pn.2)
      { sources := initialSources, merged := [] })
    pA lA c x hc hwfA hpres.2.2.2
  have hAfm := hAmg.2.2 (Value.obj ikvsA) hA hnoPre
  have hmidpres := foldl_skip_members c x hc mid
    (processMember
      (pre.foldl (fun st pn => processMember st pn.1 pn.2)
        { sources := initialSources, merged := [] })
      pA lA)
    hwfmid hmid hAmg.1
  have hBstep := processMember_x_configOnly
    (mid.foldl (fun st pn => processMember st pn.1 pn.2)
      (processMember
        (pre.foldl (fun st pn => processMember st pn.1 pn.2)
          { sources := initialSources, merged := [] })
        pA lA))
    pB lB c x lA ikvsB cfgB (Value.obj ikvsA) hc hwfB hB hBnosrc hBcfg hBnd
    (hmidpres.2.2.1.trans hAfm)
    (hmidpres.1.trans hAstep.1)
  have hBmarr := (processMember_merged_at
    (mid.foldl (fun st pn => processMember st pn.1 pn.2)
      (processMember
        (pre.foldl (fun st pn => processMember st pn.1 pn.2)
          { sources := initialSources, merged := [] })
        pA lA))
    pB lB c x hc hwfB hmidpres.2.2.2).1
  have hpostpres := foldl_skip_members c x hc post
    (processMember
      (mid.foldl (fun st pn => processMember st pn.1 pn.2)
        (processMember
          (pre.foldl (fun st pn => processMember st pn.1 pn.2)
            { sources := initialSources, merged := [] })
          pA lA))
      pB lB)
    hwfpost hpost hBmarr
  constructor
  · exact hpostpres.1.trans hBstep.1
  · obtain ⟨flds, hflds, hprop⟩ := hBstep.2
    exact ⟨flds, hpostpres.2.1.trans hflds, hprop⟩

/-- Witness for C3: a two-member chain where `A-label` introduces provider
module `x` with `source = "S"` and `B-label` then supplies only
`config.temperature` for `x`: the module provenance of `x` stays `A-label`,
and every touched config field (here `temperature`) is recorded with
most-recent label `B-label`. -/
theorem build_sources_config_only_edit_witness :
    modProvAt (build_effective_config_with_sources
        [[("providers", Value.arr [Value.obj
            [("module", Value.str "x"), ("source", Value.str "S")]])],
         [("providers", Value.arr [Value.obj
            [("module", Value.str "x"),
             ("config", Value.obj [("temperature", Value.num 1)])]])]]
        ["A-label", "B-label"]).2 "providers" "x" = some (Prov.one "A-label") ∧
    ∃ flds, cfgFieldsAt (build_effective_config_with_sources
        [[("providers", Value.arr [Value.obj
            [("module", Value.str "x"), ("source", Value.str "S")]])],
         [("providers", Value.arr [Value.obj
            [("module", Value.str "x"),
             ("config", Value.obj [("temperature", Value.num 1)])]])]]
        ["A-label", "B-label"]).2 "providers" "x" = some flds ∧
      ∀ f, alHasKey [("temperature", Value.num 1)] f = true →
        ∃ pv, alLookup flds f = some pv ∧ pv.first = "B-label" := by
  have h := build_sources_config_only_edit
    [([("providers", Value.arr [Value.obj
        [("module", Value.str "x"), ("source", Value.str "S")]])], "A-label"),
     ([("providers", Value.arr [Value.obj
        [("module", Value.str "x"),
         ("config", Value.obj [("temperature", Value.num 1)])]])], "B-label")]
    [] [] []
    [("providers", Value.arr [Value.obj
      [("module", Value.str "x"), ("source", Value.str "S")]])]
    [("providers", Value.arr [Value.obj
      [("module", Value.str "x"),
       ("config", Value.obj [("temperature", Value.num 1)])]])]
    "A-label" "B-label" "providers" "x"
    [("module", Value.str "x"), ("source", Value.str "S")]
    [("module", Value.str "x"), ("config", Value.obj [("temperature", Value.num 1)])]
    [("temperature", Value.num 1)]
    rfl (Or.inl rfl)
    (by decide)
    (fun m hm => nomatch hm)
    rfl rfl
    (fun m hm => nomatch hm)
    rfl rfl rfl rfl
    (fun m hm => nomatch hm)
  exact h

end Amplifier
